import Mathlib

/-!
Verification of the BVH builder and the ray-query engine of a WebGPU
triangle renderer (cpuBVH.ts, assignment.wgsl, raytracing.wgsl and the
procedural-noise shader module).

Modelling conventions:
* WGSL/JS floating point scalars are modelled as exact rationals.
* The AABB slab test divides by direction components that may be zero, so
  its arithmetic is modelled by the extended type `F` with IEEE division
  (x/0 = ±infinity for x ≠ 0, 0/0 = NaN) and WGSL `min`/`max` semantics
  (when one operand is NaN the other operand is returned); comparisons
  with NaN are false.
* Out-of-range buffer reads are modelled by `getD _ 0`.
* The `±Infinity` initial corners of the AABB fold are modelled by the
  `pinf`/`ninf` elements of `F`, so box corners are values of `F`.
-/

/-- 3-component rational vector (WGSL `vec3f`). -/
structure Vec3 where
  x : ℚ
  y : ℚ
  z : ℚ
deriving DecidableEq

def Vec3.add (a b : Vec3) : Vec3 := ⟨a.x + b.x, a.y + b.y, a.z + b.z⟩

def Vec3.sub (a b : Vec3) : Vec3 := ⟨a.x - b.x, a.y - b.y, a.z - b.z⟩

def Vec3.smul (c : ℚ) (a : Vec3) : Vec3 := ⟨c * a.x, c * a.y, c * a.z⟩

def Vec3.dot (a b : Vec3) : ℚ := a.x * b.x + a.y * b.y + a.z * b.z

/-- WGSL `cross`. -/
def Vec3.cross (a b : Vec3) : Vec3 :=
  ⟨a.y * b.z - a.z * b.y, a.z * b.x - a.x * b.z, a.x * b.y - a.y * b.x⟩

/-- Extended scalar: a rational, `+infinity`, `-infinity`, or NaN.  Used for
the quantities of the slab test (which divides by possibly-zero direction
components) and for AABB corners (initialised to `±Infinity` in the source). -/
inductive F where
  | fin (q : ℚ)
  | pinf
  | ninf
  | nan
deriving DecidableEq

/-- IEEE division of a rational numerator by a rational denominator:
`x/0 = ±infinity` for `x ≠ 0` and `0/0 = NaN`. -/
def qdivF (a b : ℚ) : F :=
  if b = 0 then
    if a = 0 then .nan else if 0 < a then .pinf else .ninf
  else .fin (a / b)

/-- Division of an extended numerator by a rational denominator (IEEE). -/
def fdivq : F → ℚ → F
  | .nan, _ => .nan
  | .fin a, d => qdivF a d
  | .pinf, d => if d < 0 then .ninf else .pinf
  | .ninf, d => if d < 0 then .pinf else .ninf

/-- Subtract a rational from an extended scalar (IEEE: `±inf - q = ±inf`). -/
def fsubq : F → ℚ → F
  | .nan, _ => .nan
  | .fin a, q => .fin (a - q)
  | .pinf, _ => .pinf
  | .ninf, _ => .ninf

/-- WGSL `min`: when one operand is NaN the other operand is returned. -/
def fmin : F → F → F
  | .nan, b => b
  | a, .nan => a
  | .ninf, _ => .ninf
  | _, .ninf => .ninf
  | .pinf, b => b
  | a, .pinf => a
  | .fin a, .fin b => .fin (min a b)

/-- WGSL `max`: when one operand is NaN the other operand is returned. -/
def fmax : F → F → F
  | .nan, b => b
  | a, .nan => a
  | .pinf, _ => .pinf
  | _, .pinf => .pinf
  | .ninf, b => b
  | a, .ninf => a
  | .fin a, .fin b => .fin (max a b)

/-- IEEE `>=`: false whenever an operand is NaN. -/
def fge : F → F → Bool
  | .nan, _ => false
  | _, .nan => false
  | .pinf, _ => true
  | _, .pinf => false
  | _, .ninf => true
  | .ninf, _ => false
  | .fin a, .fin b => decide (b ≤ a)

/-- IEEE `<`: false whenever an operand is NaN. -/
def flt : F → F → Bool
  | .nan, _ => false
  | _, .nan => false
  | _, .ninf => false
  | .ninf, _ => true
  | .pinf, _ => false
  | _, .pinf => true
  | .fin a, .fin b => decide (a < b)

/-- IEEE `<=` on extended scalars (used to state box containment). -/
def fle (a b : F) : Bool := fge b a

/-- IEEE negation. -/
def fneg : F → F
  | .nan => .nan
  | .fin a => .fin (-a)
  | .pinf => .ninf
  | .ninf => .pinf

/-- IEEE addition (`inf + (-inf) = NaN`). -/
def fadd : F → F → F
  | .nan, _ => .nan
  | _, .nan => .nan
  | .pinf, .ninf => .nan
  | .ninf, .pinf => .nan
  | .pinf, _ => .pinf
  | _, .pinf => .pinf
  | .ninf, _ => .ninf
  | _, .ninf => .ninf
  | .fin a, .fin b => .fin (a + b)

def fsub (a b : F) : F := fadd a (fneg b)

/-- IEEE multiplication (`0 * inf = NaN`). -/
def fmul : F → F → F
  | .nan, _ => .nan
  | _, .nan => .nan
  | .fin a, .fin b => .fin (a * b)
  | .fin a, .pinf => if a = 0 then .nan else if 0 < a then .pinf else .ninf
  | .fin a, .ninf => if a = 0 then .nan else if 0 < a then .ninf else .pinf
  | .pinf, .fin b => if b = 0 then .nan else if 0 < b then .pinf else .ninf
  | .ninf, .fin b => if b = 0 then .nan else if 0 < b then .ninf else .pinf
  | .pinf, .pinf => .pinf
  | .pinf, .ninf => .ninf
  | .ninf, .pinf => .ninf
  | .ninf, .ninf => .pinf

/-- Extended-corner vector for bounding boxes. -/
structure Vec3F where
  x : F
  y : F
  z : F
deriving DecidableEq

/-- Axis-aligned bounding box, `cpuBVH.ts` interface `AABB`. -/
structure AABB where
  minCorner : Vec3F
  maxCorner : Vec3F
deriving DecidableEq

/-- Triangle soup: flat position buffer and index triples, as handed to the
builder (`Mesh` of mesh_gen.ts restricted to the fields the BVH code reads). -/
structure Mesh where
  positions : List ℚ
  indices : List ℕ
deriving DecidableEq

/-- `positions[i]` with out-of-range reads giving 0. -/
def Mesh.pos (m : Mesh) (i : ℕ) : ℚ := m.positions.getD i 0

/-- `indices[i]` with out-of-range reads giving 0. -/
def Mesh.idx (m : Mesh) (i : ℕ) : ℕ := m.indices.getD i 0

/-- The vertex with index `vi`: `vec3f(positions[vi*3], positions[vi*3+1], positions[vi*3+2])`. -/
def Mesh.vertex (m : Mesh) (vi : ℕ) : Vec3 :=
  ⟨m.pos (vi * 3), m.pos (vi * 3 + 1), m.pos (vi * 3 + 2)⟩

structure Ray where
  origin : Vec3
  direction : Vec3
deriving DecidableEq

/-- WGSL struct `Hit`. -/
structure Hit where
  triIndex : ℕ
  barycentricCoords : Vec3
  t : ℚ
deriving DecidableEq

/-- The epsilon `0.00001` used by the intersection kernels. -/
def hitEps : ℚ := 1 / 100000

/-- The `1e30` initial value of `closest_t` / `tmax`. -/
def big30 : ℚ := 10 ^ 30

/-- `var no_hit: Hit; no_hit.t = -1.0;` (other fields zero-initialised). -/
def noHit : Hit := ⟨0, ⟨0, 0, 0⟩, -1⟩

/-- Möller–Trumbore kernel `rayTriangleHit` of assignment.wgsl (lines
302-342).  Note the single-sided determinant test `det < 0.00001`. -/
def rayTriangleHit (m : Mesh) (ray : Ray) (tri_idx : ℕ) : Hit :=
  let i0 := m.idx (tri_idx * 3)
  let i1 := m.idx (tri_idx * 3 + 1)
  let i2 := m.idx (tri_idx * 3 + 2)
  let v0 := m.vertex i0
  let v1 := m.vertex i1
  let v2 := m.vertex i2
  let e1 := v1.sub v0
  let e2 := v2.sub v0
  let P := ray.direction.cross e2
  let det := e1.dot P
  if det < hitEps then noHit else
  let inv_det := 1 / det
  let T := ray.origin.sub v0
  let u := T.dot P * inv_det
  if u < 0 ∨ u > 1 then noHit else
  let Q := T.cross e1
  let v := ray.direction.dot Q * inv_det
  if v < 0 ∨ u + v > 1 then noHit else
  let t := e2.dot Q * inv_det
  if t ≤ hitEps then noHit else
  ⟨tri_idx, ⟨1 - u - v, u, v⟩, t⟩

/-- One axis of the slab test: `t1 = (min-o)/d`, `t2 = (max-o)/d`,
`tmin = max(tmin, min(t1,t2))`, `tmax = min(tmax, max(t1,t2))`. -/
def slabAxis (mn mx : F) (o d : ℚ) (acc : F × F) : F × F :=
  let t1 := fdivq (fsubq mn o) d
  let t2 := fdivq (fsubq mx o) d
  (fmax acc.1 (fmin t1 t2), fmin acc.2 (fmax t1 t2))

/-- Slab test `rayBoxHit` of assignment.wgsl (lines 288-300); the 3-iteration
loop over the axes is unrolled in x, y, z order. -/
def rayBoxHit (ray : Ray) (box : AABB) : Bool :=
  let acc0 : F × F := (.fin 0, .fin big30)
  let acc1 := slabAxis box.minCorner.x box.maxCorner.x ray.origin.x ray.direction.x acc0
  let acc2 := slabAxis box.minCorner.y box.maxCorner.y ray.origin.y ray.direction.y acc1
  let acc3 := slabAxis box.minCorner.z box.maxCorner.z ray.origin.z ray.direction.z acc2
  fge acc3.2 acc3.1 && fge acc3.2 (.fin 0)

/-- The distance-attenuation computation of `evaluateRadiance`
(assignment.wgsl lines 131-135): the light distance is divided by the
scene-scale divisor 100, the coefficients are 1, 0.09 and 0.032. -/
def attenuationFactor (lightVecLength : ℚ) : ℚ :=
  let lightDistance := lightVecLength / 100
  let constant : ℚ := 1
  let linear : ℚ := 9 / 100
  let quadratic : ℚ := 32 / 1000
  1 / (constant + linear * lightDistance + quadratic * lightDistance * lightDistance)

/-- Frequency passed to the base noise at (1-based) octave `i`:
`freq * pow(f32(i), 2)` (part_002, octavePerlin2D / octaveValue2D). -/
def octaveFreq (freq : ℚ) (i : ℕ) : ℚ := freq * (i : ℚ) ^ 2

/-- Amplitude passed to the base noise at (1-based) octave `i`:
`amp / pow(f32(i), 2)` (part_002, octavePerlin2D / octaveValue2D). -/
def octaveAmp (amp : ℚ) (i : ℕ) : ℚ := amp / (i : ℚ) ^ 2

/-- Octave accumulation loop `octavePerlin2D` of part_002 (lines 65-71):
`for i in 1..=octaves, ret += noise(x, freq*i^2, amp/i^2)`.  The base noise
(built from trigonometric hashes) is a parameter of the model. -/
def octavePerlin2D (perlinNoise2D : ℚ × ℚ → ℚ → ℚ → ℚ) (x : ℚ × ℚ)
    (freq amp : ℚ) (octaves : ℕ) : ℚ :=
  (List.range octaves).foldl
    (fun ret i => ret + perlinNoise2D x (octaveFreq freq (i + 1)) (octaveAmp amp (i + 1))) 0

/-- Octave accumulation loop `octaveValue2D` of part_002 (lines 74-80); same
schedule applied to the value-noise base. -/
def octaveValue2D (valueNoise2D : ℚ × ℚ → ℚ → ℚ → ℚ) (x : ℚ × ℚ)
    (freq amp : ℚ) (octaves : ℕ) : ℚ :=
  (List.range octaves).foldl
    (fun ret i => ret + valueNoise2D x (octaveFreq freq (i + 1)) (octaveAmp amp (i + 1))) 0

/-! ### The Möller–Trumbore quantities

The determinant and the barycentric/parametric solutions computed by the
kernel, as standalone functions of the inputs (same formulas as in
`rayTriangleHit`), used to state the miss/hit characterisation. -/

def mtV0 (m : Mesh) (k : ℕ) : Vec3 := m.vertex (m.idx (k * 3))

def mtV1 (m : Mesh) (k : ℕ) : Vec3 := m.vertex (m.idx (k * 3 + 1))

def mtV2 (m : Mesh) (k : ℕ) : Vec3 := m.vertex (m.idx (k * 3 + 2))

def mtDet (m : Mesh) (ray : Ray) (k : ℕ) : ℚ :=
  ((mtV1 m k).sub (mtV0 m k)).dot (ray.direction.cross ((mtV2 m k).sub (mtV0 m k)))

def mtU (m : Mesh) (ray : Ray) (k : ℕ) : ℚ :=
  (ray.origin.sub (mtV0 m k)).dot (ray.direction.cross ((mtV2 m k).sub (mtV0 m k)))
    * (1 / mtDet m ray k)

def mtV (m : Mesh) (ray : Ray) (k : ℕ) : ℚ :=
  ray.direction.dot ((ray.origin.sub (mtV0 m k)).cross ((mtV1 m k).sub (mtV0 m k)))
    * (1 / mtDet m ray k)

def mtT (m : Mesh) (ray : Ray) (k : ℕ) : ℚ :=
  ((mtV2 m k).sub (mtV0 m k)).dot ((ray.origin.sub (mtV0 m k)).cross ((mtV1 m k).sub (mtV0 m k)))
    * (1 / mtDet m ray k)

/-- The triangle `(0,0,0), (0,1,0), (1,0,0)` seen from `(1/5, 1/5, 1)`
looking down `-z`: its winding makes the determinant `-1`. -/
def cexMesh2 : Mesh := ⟨[0, 0, 0, 0, 1, 0, 1, 0, 0], [0, 1, 2]⟩

def cexRay2 : Ray := ⟨⟨1/5, 1/5, 1⟩, ⟨0, 0, -1⟩⟩

/-! ### The BVH builder (cpuBVH.ts, second revision: SAH split, depth cap 25,
multi-triangle leaves, compacted primitive array) -/

namespace BVH2

/-- `BVHNode` of cpuBVH.ts (second revision): a leaf stores its triangle
list, an interior node its two subtrees; every node carries its AABB. -/
inductive BVHNode where
  | leaf (boundingBox : AABB) (triangles : List ℕ)
  | interior (boundingBox : AABB) (left right : BVHNode)
deriving DecidableEq

def BVHNode.boundingBox : BVHNode → AABB
  | .leaf b _ => b
  | .interior b _ _ => b

def BVHNode.isLeafNode : BVHNode → Bool
  | .leaf _ _ => true
  | .interior _ _ _ => false

/-- Tree height: leaves have height 0. -/
def BVHNode.height : BVHNode → ℕ
  | .leaf _ _ => 0
  | .interior _ l r => 1 + max l.height r.height

/-- The three vertices of triangle `t` (`indices[t*3+v]`, `v = 0,1,2`). -/
def triVerts (m : Mesh) (t : ℕ) : List Vec3 :=
  [m.vertex (m.idx (t * 3)), m.vertex (m.idx (t * 3 + 1)), m.vertex (m.idx (t * 3 + 2))]

/-- All vertices of the triangles of the set, in iteration order. -/
def setVerts (m : Mesh) (s : List ℕ) : List Vec3 := s.flatMap (triVerts m)

/-- Extend a box to cover one vertex (one iteration of the min/max updates
in `getTriangleSetAABB`). -/
def aabbGrow (acc : AABB) (v : Vec3) : AABB :=
  ⟨⟨fmin acc.minCorner.x (.fin v.x), fmin acc.minCorner.y (.fin v.y),
    fmin acc.minCorner.z (.fin v.z)⟩,
   ⟨fmax acc.maxCorner.x (.fin v.x), fmax acc.maxCorner.y (.fin v.y),
    fmax acc.maxCorner.z (.fin v.z)⟩⟩

/-- The `±Infinity`-initialised corners of `getTriangleSetAABB`. -/
def emptyAABB : AABB := ⟨⟨.pinf, .pinf, .pinf⟩, ⟨.ninf, .ninf, .ninf⟩⟩

/-- `getTriangleSetAABB` (cpuBVH.ts lines 365-388): fold the min/max corner
updates over every vertex of every triangle of the set. -/
def getTriangleSetAABB (m : Mesh) (s : List ℕ) : AABB :=
  (setVerts m s).foldl aabbGrow emptyAABB

/-- `dominantAxis` (cpuBVH.ts): the axis of largest box extent, ties
resolved exactly as the two `>=` tests do. -/
def dominantAxis (aabb : AABB) : Fin 3 :=
  let dx := fsub aabb.maxCorner.x aabb.minCorner.x
  let dy := fsub aabb.maxCorner.y aabb.minCorner.y
  let dz := fsub aabb.maxCorner.z aabb.minCorner.z
  if fge dx dy && fge dx dz then 0 else if fge dy dz then 1 else 2

def Vec3.comp : Vec3 → Fin 3 → ℚ
  | v, 0 => v.x
  | v, 1 => v.y
  | v, 2 => v.z

/-- Triangle centroid coordinate along `axis`:
`(positions[i0*3+axis] + positions[i1*3+axis] + positions[i2*3+axis]) / 3`. -/
def triangleCenter (m : Mesh) (axis : Fin 3) (tri : ℕ) : ℚ :=
  (Vec3.comp (m.vertex (m.idx (tri * 3))) axis
    + Vec3.comp (m.vertex (m.idx (tri * 3 + 1))) axis
    + Vec3.comp (m.vertex (m.idx (tri * 3 + 2))) axis) / 3

/-- `boxSAHCost` (cpuBVH.ts lines 390-397): half surface area times
primitive count. -/
def boxSAHCost (box : AABB) (tri_nb : ℕ) : F :=
  let size_x := fsub box.maxCorner.x box.minCorner.x
  let size_y := fsub box.maxCorner.y box.minCorner.y
  let size_z := fsub box.maxCorner.z box.minCorner.z
  let half_surface_area := fadd (fmul size_x (fadd size_y size_z)) (fmul size_y size_z)
  fmul half_surface_area (.fin (tri_nb : ℚ))

/-- The `(tri, center)` pairs of `partitionSAH`, sorted by centroid.  The JS
stable sort is rendered by `insertionSort` with the non-strict key order. -/
def sahPairs (m : Mesh) (s : List ℕ) (axis : Fin 3) : List (ℕ × ℚ) :=
  List.insertionSort (fun p q : ℕ × ℚ => p.2 ≤ q.2)
    (s.map (fun tri => (tri, triangleCenter m axis tri)))

/-- `sorted`: the triangle indices in centroid order. -/
def sortedTris (m : Mesh) (s : List ℕ) (axis : Fin 3) : List ℕ :=
  (sahPairs m s axis).map Prod.fst

/-- One candidate `b` of the SAH bucket search: find the first pair at or
past the threshold (JS `findIndex` returning `-1` is rendered by `findIdx?`
returning `none`), skip empty splits (`splitIdx <= 0`), and keep the split
when its cost beats the best so far. -/
def sahCandidate (m : Mesh) (s : List ℕ) (axis : Fin 3) (best : F × ℕ) (b : ℕ) : F × ℕ :=
  let pairs := sahPairs m s axis
  let c0 := (pairs.headD (0, 0)).2
  let range := (pairs.getLastD (0, 0)).2 - c0
  let threshold := c0 + (b : ℚ) * (range / 12)
  match pairs.findIdx? (fun p => decide (threshold ≤ p.2)) with
  | none => best
  | some splitIdx =>
    if splitIdx = 0 then best
    else
      let cost := fadd
        (boxSAHCost (getTriangleSetAABB m ((sortedTris m s axis).take splitIdx)) splitIdx)
        (boxSAHCost (getTriangleSetAABB m ((sortedTris m s axis).drop splitIdx))
          (pairs.length - splitIdx))
      if flt cost best.1 then (cost, splitIdx) else best

/-- The SAH bucket search of `partitionSAH`: starting from the median
fallback `n / 2` (JS `slice` truncates the fractional index, hence `ℕ`
division) it scans the candidates `b = 1 .. 11` when the centroid range is
positive, and keeps the cheapest split together with its cost (`bestCost`
starts at `1e30`). -/
def sahSearch (m : Mesh) (s : List ℕ) (axis : Fin 3) : F × ℕ :=
  let pairs := sahPairs m s axis
  let range := (pairs.getLastD (0, 0)).2 - (pairs.headD (0, 0)).2
  let best0 : ℕ := pairs.length / 2
  if 0 < range then
    (List.range' 1 11).foldl (sahCandidate m s axis) (.fin big30, best0)
  else (.fin big30, best0)

/-- `partitionSAH` (cpuBVH.ts lines 399-435): split the centroid-sorted
triangle list at the index found by the SAH bucket search. -/
def partitionSAH (m : Mesh) (s : List ℕ) (axis : Fin 3) : List ℕ × List ℕ :=
  ((sortedTris m s axis).take (sahSearch m s axis).2,
   (sortedTris m s axis).drop (sahSearch m s axis).2)

/-- `getTriangleSetBVH` (cpuBVH.ts lines 437-455): emit a leaf when the set
has at most one primitive or the depth cap 25 is reached, else split with
`partitionSAH` along the dominant axis and recurse. -/
def getTriangleSetBVH (m : Mesh) (s : List ℕ) (depth : ℕ) : BVHNode :=
  let box := getTriangleSetAABB m s
  if h : s.length ≤ 1 ∨ 25 ≤ depth then .leaf box s
  else
    let axis := dominantAxis box
    let p := partitionSAH m s axis
    .interior box (getTriangleSetBVH m p.1 (depth + 1)) (getTriangleSetBVH m p.2 (depth + 1))
termination_by 25 - depth
decreasing_by all_goals omega

/-- Componentwise union of two boxes (min of the min corners, max of the max
corners): the notion the invariant compares an interior box against. -/
def unionAABB (a b : AABB) : AABB :=
  ⟨⟨fmin a.minCorner.x b.minCorner.x, fmin a.minCorner.y b.minCorner.y,
    fmin a.minCorner.z b.minCorner.z⟩,
   ⟨fmax a.maxCorner.x b.maxCorner.x, fmax a.maxCorner.y b.maxCorner.y,
    fmax a.maxCorner.z b.maxCorner.z⟩⟩

/-- Checker: every interior node's box is exactly the union of its two
children's boxes. -/
def interiorBoxesExact : BVHNode → Bool
  | .leaf _ _ => true
  | .interior b l r =>
      decide (b = unionAABB l.boundingBox r.boundingBox)
        && interiorBoxesExact l && interiorBoxesExact r

/-- `v` lies inside `box`, componentwise. -/
def vec3InBox (v : Vec3) (box : AABB) : Bool :=
  (fle box.minCorner.x (.fin v.x) && fle (.fin v.x) box.maxCorner.x) &&
  (fle box.minCorner.y (.fin v.y) && fle (.fin v.y) box.maxCorner.y) &&
  (fle box.minCorner.z (.fin v.z) && fle (.fin v.z) box.maxCorner.z)

/-- Checker: `box` contains every vertex of every triangle of the set. -/
def boxContainsSet (m : Mesh) (s : List ℕ) (box : AABB) : Bool :=
  (setVerts m s).all (fun v => vec3InBox v box)

end BVH2

/-- No corner component of the box is NaN. -/
def AABB.noNan (b : AABB) : Prop :=
  b.minCorner.x ≠ .nan ∧ b.minCorner.y ≠ .nan ∧ b.minCorner.z ≠ .nan ∧
  b.maxCorner.x ≠ .nan ∧ b.maxCorner.y ≠ .nan ∧ b.maxCorner.z ≠ .nan

namespace BVH2

/-- `FlatNode` (cpuBVH.ts second revision): a leaf's `triangleIndex` is the
start index into the compacted primitive array and `nbTris` the count; `-1`
sentinels fill the unused fields. -/
structure FlatNode where
  minCorner : Vec3F
  maxCorner : Vec3F
  isLeaf : Bool
  leftChild : ℤ
  rightChild : ℤ
  triangleIndex : ℤ
  nbTris : ℤ
deriving DecidableEq

/-- `flattenNode` (cpuBVH.ts lines 489-519), rendered functionally: the
returned node list occupies the array slots `index .. next-1` (the source
writes `out[index]` first, recurses left into slot `index+1`, backpatches
`rightChild` with the next free index returned by the left recursion, then
recurses right); a leaf appends its triangle list to the primitive array
and records the previous primitive count as its `triangleIndex`.  Returns
(nodes, primitive array, next free index). -/
def flattenNode : BVHNode → ℕ → List ℕ → List FlatNode × List ℕ × ℕ
  | .leaf box tris, _index, prims =>
      ([⟨box.minCorner, box.maxCorner, true, -1, -1, (prims.length : ℤ), (tris.length : ℤ)⟩],
       prims ++ tris, _index + 1)
  | .interior box l r, index, prims =>
      let resL := flattenNode l (index + 1) prims
      let resR := flattenNode r resL.2.2 resL.2.1
      (⟨box.minCorner, box.maxCorner, false, (index : ℤ) + 1, (resL.2.2 : ℤ), -1, -1⟩
          :: resL.1 ++ resR.1,
       resR.2.1, resR.2.2)

/-- `flattenBVH` (cpuBVH.ts lines 521-526). -/
def flattenBVH (root : BVHNode) : List FlatNode × List ℕ :=
  let res := flattenNode root 0 []
  (res.1, res.2.1)

/-- Number of nodes of the tree. -/
def BVHNode.size : BVHNode → ℕ
  | .leaf _ _ => 1
  | .interior _ l r => 1 + l.size + r.size

/-- The triangle lists of the leaves, in depth-first (left before right)
order. -/
def dfsLeafTris : BVHNode → List (List ℕ)
  | .leaf _ tris => [tris]
  | .interior _ l r => dfsLeafTris l ++ dfsLeafTris r

def dfltFlatNode : FlatNode :=
  ⟨⟨.nan, .nan, .nan⟩, ⟨.nan, .nan, .nan⟩, true, -1, -1, -1, -1⟩

/-- Walk a flattened array the way the claim describes — left child at
`index+1`, right child at the stored index — collecting, for each leaf
visited, the slice of the primitive array it refers to. -/
def walkFlat (ns : List FlatNode) (ps : List ℕ) : ℕ → ℕ → List (List ℕ)
  | 0, _ => []
  | fuel + 1, i =>
    let n := ns.getD i dfltFlatNode
    if n.isLeaf then [(ps.drop n.triangleIndex.toNat).take n.nbTris.toNat]
    else walkFlat ns ps fuel (i + 1) ++ walkFlat ns ps fuel n.rightChild.toNat

end BVH2


/-! ### The first cpuBVH.ts revision (median split, single-triangle leaves)
and the GPU-side flattened BVH consumed by the assignment.wgsl traversal. -/

namespace BVH1

/-- `BVHNode` of the first cpuBVH.ts revision: a leaf stores a single
triangle index (`-1` when the set was empty). -/
inductive BVHNode where
  | leaf (boundingBox : AABB) (triangleIndex : ℤ)
  | interior (boundingBox : AABB) (left right : BVHNode)
deriving DecidableEq

/-- `partitionAlongMedian` (first revision): sort the triangles by centroid
along the axis (same centroid formula as the SAH revision) and split in the
middle; JS puts index `i` into the left half when `i < n / 2` with real
division, so the left half has `⌈n/2⌉ = (n+1)/2` elements. -/
def partitionAlongMedian (m : Mesh) (s : List ℕ) (axis : Fin 3) : List ℕ × List ℕ :=
  let pairs := List.insertionSort (fun p q : ℕ × ℚ => p.2 ≤ q.2)
    (s.map (fun tri => (tri, BVH2.triangleCenter m axis tri)))
  let sorted := pairs.map Prod.fst
  (sorted.take ((s.length + 1) / 2), sorted.drop ((s.length + 1) / 2))

/-- `getTriangleSetBVH` (first revision, cpuBVH.ts lines 161-179): leaves
hold at most one triangle, interior nodes split at the median of the
dominant axis.  `getTriangleSetAABB` and `dominantAxis` are byte-identical
in both revisions, so the `BVH2` definitions are reused. -/
def getTriangleSetBVH (m : Mesh) (s : List ℕ) : BVHNode :=
  let box := BVH2.getTriangleSetAABB m s
  if h : s.length ≤ 1 then
    .leaf box (if s.length = 1 then (s.headD 0 : ℤ) else -1)
  else
    let axis := BVH2.dominantAxis box
    let p := partitionAlongMedian m s axis
    .interior box (getTriangleSetBVH m p.1) (getTriangleSetBVH m p.2)
termination_by s.length
decreasing_by
  all_goals simp only [partitionAlongMedian, List.length_take, List.length_drop,
    List.length_map, List.length_insertionSort]
  all_goals omega

/-- `FlatNode` of the first revision: a single `triangleIndex` per leaf. -/
structure FlatNode where
  minCorner : Vec3F
  maxCorner : Vec3F
  isLeaf : Bool
  leftChild : ℤ
  rightChild : ℤ
  triangleIndex : ℤ
deriving DecidableEq

/-- `flattenNode` (first revision, cpuBVH.ts lines 212-238), rendered
functionally exactly like the second revision's `flattenNode`. -/
def flattenNode : BVHNode → ℕ → List FlatNode × ℕ
  | .leaf box tIdx, index =>
      ([⟨box.minCorner, box.maxCorner, true, -1, -1, tIdx⟩], index + 1)
  | .interior box l r, index =>
      let resL := flattenNode l (index + 1)
      let resR := flattenNode r resL.2
      (⟨box.minCorner, box.maxCorner, false, (index : ℤ) + 1, (resL.2 : ℤ), -1⟩
          :: (resL.1 ++ resR.1), resR.2)

/-- `flattenBVH` (first revision, cpuBVH.ts lines 240-244). -/
def flattenBVH (root : BVHNode) : List FlatNode := (flattenNode root 0).1

end BVH1

/-- WGSL struct `BVHNode` of assignment.wgsl (the node layout the traversal
reads): corners, a leaf flag, a single `triangleIdx` and two child
indices. -/
structure GPUNode where
  minCorner : Vec3F
  maxCorner : Vec3F
  isLeaf : Bool
  triangleIdx : ℕ
  leftChildIdx : ℕ
  rightChildIdx : ℕ
deriving DecidableEq

def dfltGPUNode : GPUNode := ⟨⟨.nan, .nan, .nan⟩, ⟨.nan, .nan, .nan⟩, true, 0, 0, 0⟩

/-- The per-node field packing of Assignment.tsx (lines 278-289): negative
sentinels are clamped to 0 (`x >= 0 ? x : 0` is `Int.toNat`). -/
def packNode (n : BVH1.FlatNode) : GPUNode :=
  ⟨n.minCorner, n.maxCorner, n.isLeaf, n.triangleIndex.toNat,
   n.leftChild.toNat, n.rightChild.toNat⟩

/-- `rayBoxHit(ray, bvh[i])` reads only the corners of the node. -/
def rayBoxHitNode (ray : Ray) (n : GPUNode) : Bool :=
  rayBoxHit ray ⟨n.minCorner, n.maxCorner⟩

/-- The traversal accumulator of `rayTrace` (assignment.wgsl):
`closest_t`, `found_hit` and the output `hit`. -/
structure TraceAcc where
  closest_t : ℚ
  found_hit : Bool
  hit : Hit
deriving DecidableEq

/-- The leaf-processing step of the `rayTrace` loop (assignment.wgsl lines
358-365): test the leaf's triangle and keep it when `t > 0` and closer than
the best so far. -/
def triUpdate (m : Mesh) (ray : Ray) (acc : TraceAcc) (tri : ℕ) : TraceAcc :=
  let candidate := rayTriangleHit m ray tri
  if candidate.t > 0 ∧ candidate.t < acc.closest_t
  then ⟨candidate.t, true, candidate⟩
  else acc

/-- One iteration of the `rayTrace` while loop (assignment.wgsl lines
354-380): pop a node; a leaf updates the accumulator with its triangle, an
interior node pushes its right child and then its left child, each gated by
the child's box test.  An empty stack is a fixpoint. -/
def traceStep (bvh : List GPUNode) (m : Mesh) (ray : Ray) :
    List ℕ × TraceAcc → List ℕ × TraceAcc
  | ([], acc) => ([], acc)
  | (idx :: rest, acc) =>
    let nd := bvh.getD idx dfltGPUNode
    if nd.isLeaf then
      (rest, triUpdate m ray acc nd.triangleIdx)
    else
      let st1 := if rayBoxHitNode ray (bvh.getD nd.rightChildIdx dfltGPUNode)
                 then nd.rightChildIdx :: rest else rest
      let st2 := if rayBoxHitNode ray (bvh.getD nd.leftChildIdx dfltGPUNode)
                 then nd.leftChildIdx :: st1 else st1
      (st2, acc)

/-- The loop state at entry: stack `[0]` (the root is pushed with no box
test), `closest_t = 1e30`, no hit found, zero-initialised hit output. -/
def initTrace : List ℕ × TraceAcc := ([0], ⟨big30, false, ⟨0, ⟨0, 0, 0⟩, 0⟩⟩)

/-- `rayTrace` of assignment.wgsl (lines 344-383): the while loop is the
iteration of `traceStep` from `initTrace`; the empty stack is a fixpoint of
`traceStep` and `2*|bvh|+1` iterations are proved sufficient to reach it
for well-formed flattened BVHs (`rayTrace_terminates`), so this fuel
computes the loop's final state. -/
def rayTrace (bvh : List GPUNode) (m : Mesh) (ray : Ray) : TraceAcc :=
  ((traceStep bvh m ray)^[2 * bvh.length + 1] initTrace).2

/-- `pick_main` of assignment.wgsl (lines 406-415): run the traversal; on a
hit return the object id of the hit triangle's first vertex, on a miss the
sentinel `-1`. -/
def pick_main (bvh : List GPUNode) (m : Mesh) (objectIds : List ℕ) (ray : Ray) : ℤ :=
  let acc := rayTrace bvh m ray
  if acc.found_hit then (objectIds.getD (m.idx (acc.hit.triIndex * 3)) 0 : ℤ) else -1

/-- The brute-force `rayTrace` of raytracing.wgsl (lines 179-230): a linear
loop over `arrayLength(indices)/3` triangles, inline Möller–Trumbore with
the double-sided test `abs(det) < 0.00001`, keeping the closest `t`. -/
def rayTraceBF (m : Mesh) (ray : Ray) : TraceAcc :=
  (List.range (m.indices.length / 3)).foldl
    (fun acc tri_idx =>
      let i0 := m.idx (tri_idx * 3)
      let i1 := m.idx (tri_idx * 3 + 1)
      let i2 := m.idx (tri_idx * 3 + 2)
      let v0 := m.vertex i0
      let v1 := m.vertex i1
      let v2 := m.vertex i2
      let e1 := v1.sub v0
      let e2 := v2.sub v0
      let P := ray.direction.cross e2
      let det := e1.dot P
      if |det| < hitEps then acc else
      let inv_det := 1 / det
      let T := ray.origin.sub v0
      let u := T.dot P * inv_det
      if u < 0 ∨ u > 1 then acc else
      let Q := T.cross e1
      let v := ray.direction.dot Q * inv_det
      if v < 0 ∨ u + v > 1 then acc else
      let t := e2.dot Q * inv_det
      if t > hitEps ∧ t < acc.closest_t
      then ⟨t, true, ⟨tri_idx, ⟨1 - u - v, u, v⟩, t⟩⟩
      else acc)
    ⟨big30, false, ⟨0, ⟨0, 0, 0⟩, 0⟩⟩

/-- Modelled from the spec for the amended C1: the same O(n) brute-force
loop as `rayTraceBF`, but with the traversal's single-sided kernel
`rayTriangleHit` (the `t > 0.00001` acceptance test of the loop body is
kept as written). -/
def rayTraceBFSS (m : Mesh) (ray : Ray) : TraceAcc :=
  (List.range (m.indices.length / 3)).foldl
    (fun acc tri_idx =>
      let candidate := rayTriangleHit m ray tri_idx
      if candidate.t > hitEps ∧ candidate.t < acc.closest_t
      then ⟨candidate.t, true, candidate⟩
      else acc)
    ⟨big30, false, ⟨0, ⟨0, 0, 0⟩, 0⟩⟩

/-! ### The abstract GPU tree: the index layout shared by both flatteners
(left child at `index+1`, right child at `index+1+size(left)`), used to
reason about the traversal. -/

inductive GTree where
  | gleaf (box : AABB) (tri : ℕ)
  | ginterior (box : AABB) (left right : GTree)
deriving DecidableEq

def GTree.box : GTree → AABB
  | .gleaf b _ => b
  | .ginterior b _ _ => b

def GTree.size : GTree → ℕ
  | .gleaf _ _ => 1
  | .ginterior _ l r => 1 + l.size + r.size

def GTree.height : GTree → ℕ
  | .gleaf _ _ => 0
  | .ginterior _ l r => 1 + max l.height r.height

/-- The triangle indices of the leaves, in depth-first order. -/
def GTree.leafTris : GTree → List ℕ
  | .gleaf _ tri => [tri]
  | .ginterior _ l r => l.leafTris ++ r.leafTris

/-- The GPU node stored for the root of `t` when `t` sits at index `i`. -/
def gpuRootNode : GTree → ℕ → GPUNode
  | .gleaf b tri, _ => ⟨b.minCorner, b.maxCorner, true, tri, 0, 0⟩
  | .ginterior b l _, i => ⟨b.minCorner, b.maxCorner, false, 0, i + 1, i + 1 + l.size⟩

/-- Depth-first encoding of a `GTree` into the flat GPU node array,
starting at index `i`. -/
def encodeG : GTree → ℕ → List GPUNode
  | .gleaf b tri, i => [gpuRootNode (.gleaf b tri) i]
  | .ginterior b l r, i =>
      gpuRootNode (.ginterior b l r) i
        :: (encodeG l (i + 1) ++ encodeG r (i + 1 + l.size))

/-- `bvh` holds the encoding of `t` at index `i`: the slot `i` stores the
root node of `t` (with its child indices) and the children are held
recursively at their computed slots. -/
def repAt (bvh : List GPUNode) : ℕ → GTree → Prop
  | i, .gleaf b tri => bvh.getD i dfltGPUNode = gpuRootNode (.gleaf b tri) i
  | i, .ginterior b l r =>
      bvh.getD i dfltGPUNode = gpuRootNode (.ginterior b l r) i ∧
      repAt bvh (i + 1) l ∧ repAt bvh (i + 1 + l.size) r

/-- Payload-forgetting view of the first revision's tree. -/
def toG1 : BVH1.BVHNode → GTree
  | .leaf box tIdx => .gleaf box tIdx.toNat
  | .interior box l r => .ginterior box (toG1 l) (toG1 r)

/-- The per-node field packing of the second revision's `FlatNode` into the
WGSL node struct (the single non-corner payload slot holds `triangleIndex`
for a leaf and `rightChild` for an interior node; negative sentinels are
clamped to 0). -/
def packNode2 (n : BVH2.FlatNode) : GPUNode :=
  ⟨n.minCorner, n.maxCorner, n.isLeaf, n.triangleIndex.toNat,
   n.leftChild.toNat, n.rightChild.toNat⟩

/-- View of the second revision's tree with the leaf payload the flattener
assigns: a leaf stores the number of primitives emitted before it (its
start index into the compacted primitive array).  The second component
threads that count. -/
def toG2w : BVH2.BVHNode → ℕ → GTree × ℕ
  | .leaf box tris, p => (.gleaf box p, p + tris.length)
  | .interior box l r, p =>
      let L := toG2w l p
      let R := toG2w r L.2
      (.ginterior box L.1 R.1, R.2)

/-- The tree-level mirror of one `traceStep` iteration: stack entries are
the subtrees the node indices denote. -/
def treeStep (m : Mesh) (ray : Ray) : List GTree × TraceAcc → List GTree × TraceAcc
  | ([], acc) => ([], acc)
  | (GTree.gleaf _ tri :: rest, acc) => (rest, triUpdate m ray acc tri)
  | (GTree.ginterior _ l r :: rest, acc) =>
      let st1 := if rayBoxHit ray r.box then r :: rest else rest
      let st2 := if rayBoxHit ray l.box then l :: st1 else st1
      (st2, acc)

/-- Structured form of the traversal: visit the left subtree before the
right one, each gated by its box test. -/
def visitTree (m : Mesh) (ray : Ray) : GTree → TraceAcc → TraceAcc
  | .gleaf _ tri, acc => triUpdate m ray acc tri
  | .ginterior _ l r, acc =>
      let acc1 := if rayBoxHit ray l.box then visitTree m ray l acc else acc
      if rayBoxHit ray r.box then visitTree m ray r acc1 else acc1

/-- Total size of the subtrees on the stack (the termination measure of the
traversal loop). -/
def stackMeasure (ts : List GTree) : ℕ := (ts.map (fun t => 2 * t.size + 1)).sum

/-- Stack well-formedness with height budget `B`: each entry's height plus
the number of entries below it is at most `B` (so the stack never exceeds
`B + 1` entries). -/
def stackOK (B : ℕ) : List GTree → Prop
  | [] => True
  | t :: rest => t.height + rest.length ≤ B ∧ stackOK B rest

/-- `F.isFin`: the scalar is a finite rational. -/
def F.isFin : F → Bool
  | .fin _ => true
  | _ => false

/-- All six corner components of the box are finite rationals. -/
def AABB.allFin (b : AABB) : Bool :=
  F.isFin b.minCorner.x && F.isFin b.minCorner.y && F.isFin b.minCorner.z &&
  F.isFin b.maxCorner.x && F.isFin b.maxCorner.y && F.isFin b.maxCorner.z

/-- Geometric well-formedness of a GPU tree over a mesh: every node's box
has finite corners and contains all three vertices of every triangle of a
leaf below it. -/
def gWF (m : Mesh) : GTree → Prop
  | .gleaf b tri => b.allFin = true ∧
      ∀ v ∈ BVH2.triVerts m tri, BVH2.vec3InBox v b = true
  | .ginterior b l r => (b.allFin = true ∧
      ∀ tri ∈ GTree.leafTris (.ginterior b l r), ∀ v ∈ BVH2.triVerts m tri,
        BVH2.vec3InBox v b = true) ∧ gWF m l ∧ gWF m r

/-- The `t` value the kernel reports for a triangle (`-1` on a miss). -/
def tCand (m : Mesh) (ray : Ray) (tri : ℕ) : ℚ := (rayTriangleHit m ray tri).t

/-- The `closest_t` projection of one leaf update of the traversal loop
(and of one iteration of the brute-force loop): keep the candidate `t` when
it is positive and beats the best so far. -/
def tFold (m : Mesh) (ray : Ray) (c : ℚ) (tri : ℕ) : ℚ :=
  if 0 < tCand m ray tri ∧ tCand m ray tri < c then tCand m ray tri else c

/-- Two separated triangles, the first (`(0,0,0), (0,1,0), (1,0,1)`, front
facing for a `+z` ray) with its leaf box's `x = 0` face containing the
origin of `cexRay3`. -/
def cexMesh3 : Mesh := ⟨[0,0,0, 0,1,0, 1,0,1, 5,5,5, 5,6,5, 5,5,6], [0, 1, 2, 3, 4, 5]⟩

/-- A ray with two zero direction components whose origin sits on the
`x = 0` slab plane of the first triangle's leaf box. -/
def cexRay3 : Ray := ⟨⟨0, 1/4, -1⟩, ⟨0, 0, 1⟩⟩


/-- C2 (amended): the kernel reports a miss exactly when the determinant is
below `1e-5` (single-sided: every negative determinant is rejected, not only
`|det| < 1e-5`), or `u` lies outside `[0,1]`, or `v < 0`, or `u+v > 1`, or
the parametric distance is `≤ 1e-5`; in every other case it returns the hit
`(triIndex, (1-u-v, u, v), t)`, whose `t` exceeds the epsilon. -/
theorem rayTriangleHit_characterisation (m : Mesh) (ray : Ray) (k : ℕ) :
    ((rayTriangleHit m ray k).t = -1 ↔
      mtDet m ray k < hitEps ∨ mtU m ray k < 0 ∨ mtU m ray k > 1 ∨ mtV m ray k < 0 ∨
        mtU m ray k + mtV m ray k > 1 ∨ mtT m ray k ≤ hitEps) ∧
    (rayTriangleHit m ray k =
      if mtDet m ray k < hitEps ∨ mtU m ray k < 0 ∨ mtU m ray k > 1 ∨ mtV m ray k < 0 ∨
          mtU m ray k + mtV m ray k > 1 ∨ mtT m ray k ≤ hitEps
      then noHit
      else ⟨k, ⟨1 - mtU m ray k - mtV m ray k, mtU m ray k, mtV m ray k⟩, mtT m ray k⟩) ∧
    ((rayTriangleHit m ray k).t = -1 ∨ (rayTriangleHit m ray k).t > hitEps) := by
  have heps : (0:ℚ) < hitEps := by norm_num [hitEps]
  have hk : rayTriangleHit m ray k =
      if mtDet m ray k < hitEps then noHit
      else if mtU m ray k < 0 ∨ mtU m ray k > 1 then noHit
      else if mtV m ray k < 0 ∨ mtU m ray k + mtV m ray k > 1 then noHit
      else if mtT m ray k ≤ hitEps then noHit
      else ⟨k, ⟨1 - mtU m ray k - mtV m ray k, mtU m ray k, mtV m ray k⟩, mtT m ray k⟩ := rfl
  have heq : rayTriangleHit m ray k =
      if mtDet m ray k < hitEps ∨ mtU m ray k < 0 ∨ mtU m ray k > 1 ∨ mtV m ray k < 0 ∨
          mtU m ray k + mtV m ray k > 1 ∨ mtT m ray k ≤ hitEps
      then noHit
      else ⟨k, ⟨1 - mtU m ray k - mtV m ray k, mtU m ray k, mtV m ray k⟩, mtT m ray k⟩ := by
    rw [hk]
    split_ifs <;> first | rfl | tauto
  refine ⟨?_, heq, ?_⟩
  · rw [heq]
    by_cases hC : mtDet m ray k < hitEps ∨ mtU m ray k < 0 ∨ mtU m ray k > 1 ∨ mtV m ray k < 0 ∨
        mtU m ray k + mtV m ray k > 1 ∨ mtT m ray k ≤ hitEps
    · simp [hC, noHit]
    · rw [if_neg hC]
      show mtT m ray k = -1 ↔ _
      constructor
      · intro habs
        exfalso
        push_neg at hC
        linarith [hC.2.2.2.2.2]
      · intro h
        exact absurd h hC
  · rw [heq]
    by_cases hC : mtDet m ray k < hitEps ∨ mtU m ray k < 0 ∨ mtU m ray k > 1 ∨ mtV m ray k < 0 ∨
        mtU m ray k + mtV m ray k > 1 ∨ mtT m ray k ≤ hitEps
    · simp [hC, noHit]
    · rw [if_neg hC]
      right
      push_neg at hC
      exact hC.2.2.2.2.2

/-- C2 (counterexample to the claim as stated): at this input
`|det| = 1 ≥ 1e-5`, `u = v = 1/5 ∈ [0,1]`, `u + v ≤ 1` and `t = 1 > 1e-5`,
so the claimed characterisation (`miss iff |det| < 1e-5 ∨ ...`) predicts a
hit, yet `rayTriangleHit` reports a miss: the code rejects every negative
determinant (`det < 1e-5`), i.e. it back-face culls. -/
theorem rayTriangleHit_claim_false :
    (hitEps ≤ |mtDet cexMesh2 cexRay2 0| ∧
      ¬(mtU cexMesh2 cexRay2 0 < 0 ∨ mtU cexMesh2 cexRay2 0 > 1) ∧
      ¬(mtV cexMesh2 cexRay2 0 < 0 ∨ mtU cexMesh2 cexRay2 0 + mtV cexMesh2 cexRay2 0 > 1) ∧
      ¬(mtT cexMesh2 cexRay2 0 ≤ hitEps)) ∧
    rayTriangleHit cexMesh2 cexRay2 0 = noHit := by
  refine ⟨⟨?_, ?_, ?_, ?_⟩, ?_⟩ <;> exact of_decide_eq_true (by with_unfolding_all rfl)

/-- C8 (counterexample to the claim as stated): the second octave does not
halve the first octave's amplitude (it quarters it: `amp/2² = amp/4`), and
the frequency ratio between consecutive octaves is not a fixed factor
(octaves 1,2,3 have frequencies `freq·1, freq·4, freq·9`, which form no
geometric progression). -/
theorem octave_schedule_claim_false :
    ¬ octaveAmp 1 2 = octaveAmp 1 1 / 2 ∧
    octaveFreq 1 2 * octaveFreq 1 2 ≠ octaveFreq 1 1 * octaveFreq 1 3 := by
  constructor <;> norm_num [octaveAmp, octaveFreq]

/-- C8 (amended): at octave `i` (1-based) the base noise is sampled at
frequency `freq·i²` and amplitude `amp/i²` and the samples are summed; thus
consecutive octaves scale the amplitude by `i²/(i+1)²` (not by 1/2) and the
frequency by `(i+1)²/i²` (not by a fixed factor). -/
theorem octave_schedule (noise : ℚ × ℚ → ℚ → ℚ → ℚ) (x : ℚ × ℚ)
    (freq amp : ℚ) (n i : ℕ) (hi : 1 ≤ i) :
    octavePerlin2D noise x freq amp (n + 1) =
      octavePerlin2D noise x freq amp n
        + noise x (octaveFreq freq (n + 1)) (octaveAmp amp (n + 1)) ∧
    octaveValue2D noise x freq amp (n + 1) =
      octaveValue2D noise x freq amp n
        + noise x (octaveFreq freq (n + 1)) (octaveAmp amp (n + 1)) ∧
    octaveAmp amp (i + 1) * ((i : ℚ) + 1) ^ 2 = octaveAmp amp i * (i : ℚ) ^ 2 ∧
    octaveFreq freq (i + 1) * (i : ℚ) ^ 2 = octaveFreq freq i * ((i : ℚ) + 1) ^ 2 := by
  have hi0 : ((i : ℚ)) ≠ 0 := by
    have : 0 < i := hi
    exact_mod_cast this.ne'
  have hi1 : ((i : ℚ) + 1) ≠ 0 := by positivity
  refine ⟨?_, ?_, ?_, ?_⟩
  · simp [octavePerlin2D, List.range_succ]
  · simp [octaveValue2D, List.range_succ]
  · show amp / (((i:ℕ) + 1 : ℕ) : ℚ) ^ 2 * ((i : ℚ) + 1) ^ 2 = amp / (i : ℚ) ^ 2 * (i : ℚ) ^ 2
    push_cast
    field_simp
  · show freq * (((i:ℕ) + 1 : ℕ) : ℚ) ^ 2 * (i : ℚ) ^ 2 = freq * (i : ℚ) ^ 2 * ((i : ℚ) + 1) ^ 2
    push_cast
    ring

/-- Witness for `octave_schedule` at the concrete base noise `f+a`,
`x = (0,0)`, `freq = amp = 1`, `n = i = 1`. -/
theorem octave_schedule_witness :
    (1 ≤ 1) ∧
    (octavePerlin2D (fun _ f a => f + a) (0, 0) 1 1 2 =
        octavePerlin2D (fun _ f a => f + a) (0, 0) 1 1 1
          + (octaveFreq 1 2 + octaveAmp 1 2) ∧
      octaveValue2D (fun _ f a => f + a) (0, 0) 1 1 2 =
        octaveValue2D (fun _ f a => f + a) (0, 0) 1 1 1
          + (octaveFreq 1 2 + octaveAmp 1 2) ∧
      octaveAmp 1 2 * (((1:ℕ) : ℚ) + 1) ^ 2 = octaveAmp 1 1 * ((1:ℕ) : ℚ) ^ 2 ∧
      octaveFreq 1 2 * ((1:ℕ) : ℚ) ^ 2 = octaveFreq 1 1 * (((1:ℕ) : ℚ) + 1) ^ 2) :=
  ⟨le_refl 1, octave_schedule (fun _ f a => f + a) (0, 0) 1 1 1 1 (le_refl 1)⟩

/-- C9: the attenuation factor computed in `evaluateRadiance` is
monotonically non-increasing in the surface-to-light distance. -/
theorem attenuationFactor_antitone (d1 d2 : ℚ) (h0 : 0 ≤ d1) (h12 : d1 ≤ d2) :
    attenuationFactor d2 ≤ attenuationFactor d1 := by
  unfold attenuationFactor
  simp only
  have h1 : (0:ℚ) < 1 + 9/100 * (d1/100) + 32/1000 * (d1/100) * (d1/100) := by nlinarith
  apply one_div_le_one_div_of_le h1
  nlinarith

/-- Witness for `attenuationFactor_antitone` at distances 0 and 100. -/
theorem attenuationFactor_antitone_witness :
    (0:ℚ) ≤ 0 ∧ (0:ℚ) ≤ 100 ∧ attenuationFactor 100 ≤ attenuationFactor 0 :=
  ⟨le_refl 0, by norm_num, attenuationFactor_antitone 0 100 (le_refl 0) (by norm_num)⟩

/-- C10 (counterexample to the claim as stated): the unit box and a ray whose
origin `(0, 1/2, 1/2)` lies on the box face `x = 0` with direction `(0,0,1)`.
On the x axis the slabs are `0/0 = NaN` and `1/0 = +infinity`; WGSL
`min(NaN, +inf) = +inf` drives `tmin` to `+infinity`, so the test returns
`false` although the origin satisfies `min ≤ origin ≤ max` on every axis. -/
theorem rayBoxHit_inside_claim_false :
    ((0:ℚ) ≤ 0 ∧ (0:ℚ) ≤ 1) ∧ ((0:ℚ) ≤ 1/2 ∧ (1/2:ℚ) ≤ 1) ∧ ((0:ℚ) ≤ 1/2 ∧ (1/2:ℚ) ≤ 1) ∧
    rayBoxHit ⟨⟨0, 1/2, 1/2⟩, ⟨0, 0, 1⟩⟩
      ⟨⟨.fin 0, .fin 0, .fin 0⟩, ⟨.fin 1, .fin 1, .fin 1⟩⟩ = false := by
  refine ⟨⟨?_, ?_⟩, ⟨?_, ?_⟩, ⟨?_, ?_⟩, ?_⟩ <;>
    exact of_decide_eq_true (by with_unfolding_all rfl)

/-- One axis of the amended containment argument: if on this axis either the
direction is nonzero and `min ≤ origin ≤ max`, or the direction is zero and
`min < origin < max`, then the axis leaves `tmin` at `0` and keeps `tmax`
finite and nonnegative. -/
theorem slabAxis_inside (a b o d m : ℚ) (hm : 0 ≤ m)
    (h0 : d = 0 → a < o ∧ o < b) (h1 : a ≤ o) (h2 : o ≤ b) :
    ∃ m2 : ℚ, slabAxis (.fin a) (.fin b) o d (.fin 0, .fin m) = (.fin 0, .fin m2) ∧ 0 ≤ m2 := by
  by_cases hd : d = 0
  · obtain ⟨ha, hb⟩ := h0 hd
    subst hd
    have e1 : fdivq (fsubq (F.fin a) o) 0 = F.ninf := by
      show qdivF (a - o) 0 = F.ninf
      unfold qdivF
      rw [if_pos rfl, if_neg (by linarith : ¬(a - o = 0)), if_neg (by linarith : ¬(0 < a - o))]
    have e2 : fdivq (fsubq (F.fin b) o) 0 = F.pinf := by
      show qdivF (b - o) 0 = F.pinf
      unfold qdivF
      rw [if_pos rfl, if_neg (by linarith : ¬(b - o = 0)), if_pos (by linarith : 0 < b - o)]
    refine ⟨m, ?_, hm⟩
    simp only [slabAxis, e1, e2]
    rfl
  · have e1 : fdivq (fsubq (F.fin a) o) d = F.fin ((a - o) / d) := by
      show qdivF (a - o) d = _
      unfold qdivF
      rw [if_neg hd]
    have e2 : fdivq (fsubq (F.fin b) o) d = F.fin ((b - o) / d) := by
      show qdivF (b - o) d = _
      unfold qdivF
      rw [if_neg hd]
    have hlow : min ((a - o)/d) ((b - o)/d) ≤ 0 := by
      rcases lt_or_gt_of_ne hd with hneg | hpos
      · refine min_le_of_right_le (div_nonpos_iff.mpr (Or.inl ⟨by linarith, hneg.le⟩))
      · refine min_le_of_left_le (div_nonpos_iff.mpr (Or.inr ⟨by linarith, hpos.le⟩))
    have hhigh : 0 ≤ max ((a - o)/d) ((b - o)/d) := by
      rcases lt_or_gt_of_ne hd with hneg | hpos
      · exact le_max_of_le_left (div_nonneg_iff.mpr (Or.inr ⟨by linarith, hneg.le⟩))
      · exact le_max_of_le_right (div_nonneg_iff.mpr (Or.inl ⟨by linarith, hpos.le⟩))
    refine ⟨min m (max ((a - o)/d) ((b - o)/d)), ?_, le_min hm hhigh⟩
    simp only [slabAxis, e1, e2]
    show (F.fin (max 0 (min _ _)), F.fin (min m (max _ _))) = _
    rw [max_eq_left hlow]

/-- C10 (amended): the slab test returns true for every ray whose origin lies
inside the box, where on axes with a nonzero direction component the
non-strict containment `min ≤ origin ≤ max` suffices, while on axes with a
zero direction component the origin must lie strictly between the two slab
planes (on a face with a zero direction component the IEEE `0/0 = NaN`
combined with WGSL `min`/`max` makes the test cull the box, as the
counterexample shows). -/
theorem rayBoxHit_origin_inside (mn mx o d : Vec3)
    (hx0 : d.x = 0 → mn.x < o.x ∧ o.x < mx.x) (hx1 : mn.x ≤ o.x) (hx2 : o.x ≤ mx.x)
    (hy0 : d.y = 0 → mn.y < o.y ∧ o.y < mx.y) (hy1 : mn.y ≤ o.y) (hy2 : o.y ≤ mx.y)
    (hz0 : d.z = 0 → mn.z < o.z ∧ o.z < mx.z) (hz1 : mn.z ≤ o.z) (hz2 : o.z ≤ mx.z) :
    rayBoxHit ⟨o, d⟩ ⟨⟨.fin mn.x, .fin mn.y, .fin mn.z⟩, ⟨.fin mx.x, .fin mx.y, .fin mx.z⟩⟩
      = true := by
  have hb : (0:ℚ) ≤ big30 := by norm_num [big30]
  obtain ⟨m1, he1, hm1⟩ := slabAxis_inside mn.x mx.x o.x d.x big30 hb hx0 hx1 hx2
  obtain ⟨m2, he2, hm2⟩ := slabAxis_inside mn.y mx.y o.y d.y m1 hm1 hy0 hy1 hy2
  obtain ⟨m3, he3, hm3⟩ := slabAxis_inside mn.z mx.z o.z d.z m2 hm2 hz0 hz1 hz2
  show (fge _ _ && fge _ _) = true
  rw [show slabAxis (.fin mn.x) (.fin mx.x) o.x d.x (.fin 0, .fin big30) = (.fin 0, .fin m1)
      from he1,
    show slabAxis (.fin mn.y) (.fin mx.y) o.y d.y (.fin 0, .fin m1) = (.fin 0, .fin m2)
      from he2,
    show slabAxis (.fin mn.z) (.fin mx.z) o.z d.z (.fin 0, .fin m2) = (.fin 0, .fin m3)
      from he3]
  simp [fge, hm3]

/-- Witness for `rayBoxHit_origin_inside`: the unit box with the origin at
its centre and direction `(0, 0, 1)`. -/
theorem rayBoxHit_origin_inside_witness :
    rayBoxHit ⟨⟨1/2, 1/2, 1/2⟩, ⟨0, 0, 1⟩⟩
      ⟨⟨.fin 0, .fin 0, .fin 0⟩, ⟨.fin 1, .fin 1, .fin 1⟩⟩ = true :=
  rayBoxHit_origin_inside ⟨0, 0, 0⟩ ⟨1, 1, 1⟩ ⟨1/2, 1/2, 1/2⟩ ⟨0, 0, 1⟩
    (fun h => by norm_num) (by norm_num) (by norm_num)
    (fun h => by norm_num) (by norm_num) (by norm_num)
    (fun h => by norm_num at h) (by norm_num) (by norm_num)

/-! ### Facts about the extended scalars and the AABB fold -/

theorem fmin_comm (a b : F) : fmin a b = fmin b a := by
  cases a <;> cases b <;> simp [fmin, min_comm]

theorem fmax_comm (a b : F) : fmax a b = fmax b a := by
  cases a <;> cases b <;> simp [fmax, max_comm]

theorem fmin_eq_nan (a b : F) : fmin a b = .nan ↔ a = .nan ∧ b = .nan := by
  cases a <;> cases b <;> simp [fmin]

theorem fmax_eq_nan (a b : F) : fmax a b = .nan ↔ a = .nan ∧ b = .nan := by
  cases a <;> cases b <;> simp [fmax]

theorem fmin_assoc (a b c : F) (ha : a ≠ .nan) (hb : b ≠ .nan) (hc : c ≠ .nan) :
    fmin (fmin a b) c = fmin a (fmin b c) := by
  cases a <;> cases b <;> cases c <;> simp_all [fmin, min_assoc]

theorem fmax_assoc (a b c : F) (ha : a ≠ .nan) (hb : b ≠ .nan) (hc : c ≠ .nan) :
    fmax (fmax a b) c = fmax a (fmax b c) := by
  cases a <;> cases b <;> cases c <;> simp_all [fmax, max_assoc]

theorem fmin_pinf (a : F) (h : a ≠ .nan) : fmin a .pinf = a := by
  cases a <;> simp_all [fmin]

theorem fmax_ninf (a : F) (h : a ≠ .nan) : fmax a .ninf = a := by
  cases a <;> simp_all [fmax]

theorem fmin_fin_right_comm (a : F) (p q : ℚ) :
    fmin (fmin a (.fin p)) (.fin q) = fmin (fmin a (.fin q)) (.fin p) := by
  cases a <;> simp [fmin, min_right_comm, min_comm p q]

theorem fmax_fin_right_comm (a : F) (p q : ℚ) :
    fmax (fmax a (.fin p)) (.fin q) = fmax (fmax a (.fin q)) (.fin p) := by
  cases a <;> simp only [fmax] <;>
    first
      | rw [max_assoc, max_comm p q, ← max_assoc]
      | rw [max_comm]

theorem fle_fmin_fin (a : F) (q : ℚ) : fle (fmin a (.fin q)) (.fin q) = true := by
  cases a <;> simp [fle, fge, fmin, min_le_right]

theorem fle_fin_fmax (a : F) (q : ℚ) : fle (.fin q) (fmax a (.fin q)) = true := by
  cases a <;> simp [fle, fge, fmax, le_max_right]

theorem fle_fmin_of_fle (a b : F) (q : ℚ) (h : fle a b = true) :
    fle (fmin a (.fin q)) b = true := by
  cases a <;> cases b <;> simp_all [fle, fge, fmin]

theorem fle_fmax_of_fle (a b : F) (q : ℚ) (h : fle b a = true) :
    fle b (fmax a (.fin q)) = true := by
  cases a <;> cases b <;> simp_all [fle, fge, fmax]

/-- A left fold over a right-commutative operation is invariant under
permutation of the list. -/
theorem foldl_perm_of_right_comm {α β : Type} (f : β → α → β)
    (hf : ∀ b a1 a2, f (f b a1) a2 = f (f b a2) a1)
    {l1 l2 : List α} (p : l1.Perm l2) : ∀ b, l1.foldl f b = l2.foldl f b := by
  induction p with
  | nil => intro b; rfl
  | cons x _ ih => intro b; simp only [List.foldl_cons]; exact ih _
  | swap x y l => intro b; simp only [List.foldl_cons]; rw [hf]
  | trans _ _ ih1 ih2 => intro b; rw [ih1, ih2]

/-- Invariant preservation along a left fold. -/
theorem foldl_invariant {α β : Type} (P : β → Prop) (f : β → α → β)
    (l : List α) (init : β) (h0 : P init) (hstep : ∀ b a, P b → P (f b a)) :
    P (l.foldl f init) := by
  induction l generalizing init with
  | nil => exact h0
  | cons a l ih => exact ih _ (hstep _ _ h0)

namespace BVH2

theorem emptyAABB_noNan : emptyAABB.noNan := by
  unfold emptyAABB AABB.noNan
  simp

theorem aabbGrow_noNan (acc : AABB) (v : Vec3) : (aabbGrow acc v).noNan := by
  unfold aabbGrow AABB.noNan
  simp [fmin_eq_nan, fmax_eq_nan]

theorem foldl_aabbGrow_noNan (L : List Vec3) (acc : AABB) (h : acc.noNan) :
    (L.foldl aabbGrow acc).noNan := by
  induction L generalizing acc with
  | nil => exact h
  | cons v L ih => exact ih _ (aabbGrow_noNan acc v)

theorem getTriangleSetAABB_noNan (m : Mesh) (s : List ℕ) :
    (getTriangleSetAABB m s).noNan :=
  foldl_aabbGrow_noNan _ _ emptyAABB_noNan

theorem unionAABB_empty (a : AABB) (h : a.noNan) : unionAABB a emptyAABB = a := by
  obtain ⟨⟨a1, a2, a3⟩, ⟨a4, a5, a6⟩⟩ := a
  obtain ⟨h1, h2, h3, h4, h5, h6⟩ := h
  simp_all [unionAABB, emptyAABB, fmin_pinf, fmax_ninf]

theorem unionAABB_assoc_grow (a x : AABB) (v : Vec3) (ha : a.noNan) (hx : x.noNan) :
    unionAABB (aabbGrow a v) x = unionAABB a (unionAABB (aabbGrow emptyAABB v) x) := by
  obtain ⟨⟨a1, a2, a3⟩, ⟨a4, a5, a6⟩⟩ := a
  obtain ⟨⟨x1, x2, x3⟩, ⟨x4, x5, x6⟩⟩ := x
  obtain ⟨h1, h2, h3, h4, h5, h6⟩ := ha
  obtain ⟨g1, g2, g3, g4, g5, g6⟩ := hx
  simp only [aabbGrow, unionAABB, emptyAABB, AABB.mk.injEq, Vec3F.mk.injEq]
  refine ⟨⟨?_, ?_, ?_⟩, ?_, ?_, ?_⟩ <;>
    simp only [fmin, fmax] <;>
    first
      | exact fmin_assoc _ _ _ ‹_› (by simp) ‹_›
      | exact fmax_assoc _ _ _ ‹_› (by simp) ‹_›

theorem foldl_aabbGrow_union (L : List Vec3) (acc : AABB) (h : acc.noNan) :
    L.foldl aabbGrow acc = unionAABB acc (L.foldl aabbGrow emptyAABB) := by
  induction L generalizing acc with
  | nil => exact (unionAABB_empty acc h).symm
  | cons v L ih =>
    show L.foldl aabbGrow (aabbGrow acc v) = unionAABB acc (L.foldl aabbGrow (aabbGrow emptyAABB v))
    rw [ih _ (aabbGrow_noNan acc v), ih _ (aabbGrow_noNan emptyAABB v)]
    exact unionAABB_assoc_grow acc _ v h (foldl_aabbGrow_noNan L emptyAABB emptyAABB_noNan)

theorem setVerts_append (m : Mesh) (s1 s2 : List ℕ) :
    setVerts m (s1 ++ s2) = setVerts m s1 ++ setVerts m s2 := by
  simp [setVerts]

theorem getTriangleSetAABB_append (m : Mesh) (s1 s2 : List ℕ) :
    getTriangleSetAABB m (s1 ++ s2)
      = unionAABB (getTriangleSetAABB m s1) (getTriangleSetAABB m s2) := by
  unfold getTriangleSetAABB
  rw [setVerts_append, List.foldl_append]
  exact foldl_aabbGrow_union _ _ (foldl_aabbGrow_noNan _ _ emptyAABB_noNan)

theorem aabbGrow_right_comm (acc : AABB) (u v : Vec3) :
    aabbGrow (aabbGrow acc u) v = aabbGrow (aabbGrow acc v) u := by
  simp only [aabbGrow, AABB.mk.injEq, Vec3F.mk.injEq]
  exact ⟨⟨fmin_fin_right_comm _ _ _, fmin_fin_right_comm _ _ _, fmin_fin_right_comm _ _ _⟩,
    fmax_fin_right_comm _ _ _, fmax_fin_right_comm _ _ _, fmax_fin_right_comm _ _ _⟩

theorem setVerts_perm (m : Mesh) {s1 s2 : List ℕ} (h : s1.Perm s2) :
    (setVerts m s1).Perm (setVerts m s2) :=
  List.Perm.flatMap_right _ h

theorem getTriangleSetAABB_perm (m : Mesh) {s1 s2 : List ℕ} (h : s1.Perm s2) :
    getTriangleSetAABB m s1 = getTriangleSetAABB m s2 :=
  foldl_perm_of_right_comm aabbGrow (fun acc u v => aabbGrow_right_comm acc u v)
    (setVerts_perm m h) emptyAABB

end BVH2

namespace BVH2

theorem vec3InBox_grow (v : Vec3) (box : AABB) (w : Vec3) (h : vec3InBox v box = true) :
    vec3InBox v (aabbGrow box w) = true := by
  simp only [vec3InBox, aabbGrow, Bool.and_eq_true] at h ⊢
  obtain ⟨⟨⟨h1, h2⟩, h3, h4⟩, h5, h6⟩ := h
  exact ⟨⟨⟨fle_fmin_of_fle _ _ _ h1, fle_fmax_of_fle _ _ _ h2⟩,
      fle_fmin_of_fle _ _ _ h3, fle_fmax_of_fle _ _ _ h4⟩,
    fle_fmin_of_fle _ _ _ h5, fle_fmax_of_fle _ _ _ h6⟩

theorem vec3InBox_grow_self (box : AABB) (v : Vec3) :
    vec3InBox v (aabbGrow box v) = true := by
  simp only [vec3InBox, aabbGrow, Bool.and_eq_true]
  exact ⟨⟨⟨fle_fmin_fin _ _, fle_fin_fmax _ _⟩, fle_fmin_fin _ _, fle_fin_fmax _ _⟩,
    fle_fmin_fin _ _, fle_fin_fmax _ _⟩

theorem vec3InBox_foldl_preserve (L : List Vec3) (acc : AABB) (v : Vec3)
    (h : vec3InBox v acc = true) : vec3InBox v (L.foldl aabbGrow acc) = true := by
  induction L generalizing acc with
  | nil => exact h
  | cons w L ih => exact ih _ (vec3InBox_grow v acc w h)

theorem vec3InBox_foldl (L : List Vec3) : ∀ (acc : AABB) (v : Vec3), v ∈ L →
    vec3InBox v (L.foldl aabbGrow acc) = true := by
  induction L with
  | nil => intro acc v hv; cases hv
  | cons w L ih =>
    intro acc v hv
    rcases List.mem_cons.mp hv with rfl | hv
    · exact vec3InBox_foldl_preserve L _ v (vec3InBox_grow_self acc v)
    · exact ih _ v hv

theorem boxContainsSet_getTriangleSetAABB (m : Mesh) (s : List ℕ) :
    boxContainsSet m s (getTriangleSetAABB m s) = true := by
  unfold boxContainsSet getTriangleSetAABB
  rw [List.all_eq_true]
  intro v hv
  exact vec3InBox_foldl _ _ _ hv

theorem boundingBox_getTriangleSetBVH (m : Mesh) (s : List ℕ) (depth : ℕ) :
    (getTriangleSetBVH m s depth).boundingBox = getTriangleSetAABB m s := by
  rw [getTriangleSetBVH]
  split <;> rfl

theorem partitionSAH_append_perm (m : Mesh) (s : List ℕ) (axis : Fin 3) :
    ((partitionSAH m s axis).1 ++ (partitionSAH m s axis).2).Perm s := by
  unfold partitionSAH
  rw [List.take_append_drop]
  unfold sortedTris sahPairs
  refine (List.Perm.map Prod.fst (List.perm_insertionSort _ _)).trans ?_
  rw [List.map_map]
  rw [show (Prod.fst ∘ fun tri : ℕ => (tri, triangleCenter m axis tri)) = id from rfl,
    List.map_id]

/-- C3: for every mesh and triangle set, every interior node of the built
BVH has a bounding box that is exactly the union of its two children's
boxes, and the root box contains every vertex of every primitive of the
set. -/
theorem bvh_box_invariant (m : Mesh) (s : List ℕ) (depth : ℕ) :
    interiorBoxesExact (getTriangleSetBVH m s depth) = true ∧
    boxContainsSet m s (getTriangleSetBVH m s depth).boundingBox = true := by
  induction s, depth using getTriangleSetBVH.induct m with
  | case1 s depth h =>
    rw [getTriangleSetBVH]
    simp only [dif_pos h]
    exact ⟨rfl, boxContainsSet_getTriangleSetAABB m s⟩
  | case2 s depth box h axis p ihl ihr =>
    have hperm := partitionSAH_append_perm m s (dominantAxis (getTriangleSetAABB m s))
    constructor
    · rw [getTriangleSetBVH]
      simp only [dif_neg h]
      show (decide _ && _ && _) = true
      rw [Bool.and_eq_true, Bool.and_eq_true, decide_eq_true_iff]
      refine ⟨⟨?_, ihl.1⟩, ihr.1⟩
      rw [boundingBox_getTriangleSetBVH, boundingBox_getTriangleSetBVH]
      rw [← getTriangleSetAABB_append]
      exact (getTriangleSetAABB_perm m hperm).symm
    · rw [boundingBox_getTriangleSetBVH]
      exact boxContainsSet_getTriangleSetAABB m s

end BVH2

namespace BVH2

theorem sahPairs_length (m : Mesh) (s : List ℕ) (axis : Fin 3) :
    (sahPairs m s axis).length = s.length := by
  unfold sahPairs
  rw [List.length_insertionSort, List.length_map]

theorem sortedTris_length (m : Mesh) (s : List ℕ) (axis : Fin 3) :
    (sortedTris m s axis).length = s.length := by
  unfold sortedTris
  rw [List.length_map, sahPairs_length]

/-- The split index chosen by the SAH search is always a nonempty split:
between 1 and n-1 (the median fallback by construction, an accepted
candidate because `findIdx?` returns an index below the length and index 0
is skipped). -/
theorem sahSearch_bounds (m : Mesh) (s : List ℕ) (axis : Fin 3) (h2 : 2 ≤ s.length) :
    1 ≤ (sahSearch m s axis).2 ∧ (sahSearch m s axis).2 < s.length := by
  have hlen : (sahPairs m s axis).length = s.length := sahPairs_length m s axis
  have hstep : ∀ (best : F × ℕ) (b : ℕ), 1 ≤ best.2 ∧ best.2 < s.length →
      1 ≤ (sahCandidate m s axis best b).2 ∧ (sahCandidate m s axis best b).2 < s.length := by
    intro best b hbest
    simp only [sahCandidate]
    cases hk : (sahPairs m s axis).findIdx?
        (fun p => decide (((sahPairs m s axis).headD (0, 0)).2
          + (b : ℚ) * ((((sahPairs m s axis).getLastD (0, 0)).2
            - ((sahPairs m s axis).headD (0, 0)).2) / 12) ≤ p.2)) with
    | none => exact hbest
    | some k =>
      rw [List.findIdx?_eq_some_iff_findIdx_eq] at hk
      dsimp only
      by_cases h0 : k = 0
      · simp only [h0, if_pos rfl]
        exact hbest
      · rw [if_neg h0]
        split
        · exact ⟨by omega, by omega⟩
        · exact hbest
  simp only [sahSearch]
  split
  · exact foldl_invariant (fun best : F × ℕ => 1 ≤ best.2 ∧ best.2 < s.length) _ _ _
      ⟨by omega, by omega⟩ (fun best b h => hstep best b h)
  · exact ⟨by omega, by omega⟩

theorem partitionSAH_sizes (m : Mesh) (s : List ℕ) (axis : Fin 3) (h2 : 2 ≤ s.length) :
    (partitionSAH m s axis).1 ≠ [] ∧ (partitionSAH m s axis).2 ≠ [] ∧
    (partitionSAH m s axis).1.length < s.length ∧
    (partitionSAH m s axis).2.length < s.length := by
  obtain ⟨hk1, hk2⟩ := sahSearch_bounds m s axis h2
  have hst := sortedTris_length m s axis
  unfold partitionSAH
  simp only [ne_eq, ← List.length_pos_iff_ne_nil, List.length_take, List.length_drop, hst]
  refine ⟨by omega, by omega, by omega, by omega⟩

/-- Height bound: a build started at `depth` has height at most `25 - depth`. -/
theorem getTriangleSetBVH_height (m : Mesh) (s : List ℕ) (depth : ℕ) :
    (getTriangleSetBVH m s depth).height ≤ 25 - depth := by
  induction s, depth using getTriangleSetBVH.induct m with
  | case1 s depth h =>
    rw [getTriangleSetBVH]
    simp only [dif_pos h]
    simp [BVHNode.height]
  | case2 s depth box h axis p ihl ihr =>
    have ihl2 : (getTriangleSetBVH m
        (partitionSAH m s (dominantAxis (getTriangleSetAABB m s))).1 (depth + 1)).height
        ≤ 25 - (depth + 1) := ihl
    have ihr2 : (getTriangleSetBVH m
        (partitionSAH m s (dominantAxis (getTriangleSetAABB m s))).2 (depth + 1)).height
        ≤ 25 - (depth + 1) := ihr
    rw [getTriangleSetBVH]
    simp only [dif_neg h]
    simp only [BVHNode.height]
    omega

/-- C5: the builder emits a leaf exactly when the set has at most one
primitive or the depth cap 25 is reached; otherwise it recurses on the two
`partitionSAH` halves, which are nonempty, strictly smaller, and together a
permutation of the set; and every tree built from depth 0 has height at
most 25. -/
theorem bvh_builder_shape (m : Mesh) (s : List ℕ) (depth : ℕ) :
    ((getTriangleSetBVH m s depth).isLeafNode = true ↔ s.length ≤ 1 ∨ 25 ≤ depth) ∧
    (2 ≤ s.length → ∀ axis : Fin 3,
      (partitionSAH m s axis).1 ≠ [] ∧ (partitionSAH m s axis).2 ≠ [] ∧
      (partitionSAH m s axis).1.length < s.length ∧
      (partitionSAH m s axis).2.length < s.length ∧
      ((partitionSAH m s axis).1 ++ (partitionSAH m s axis).2).Perm s) ∧
    (getTriangleSetBVH m s 0).height ≤ 25 := by
  refine ⟨?_, ?_, ?_⟩
  · rw [getTriangleSetBVH]
    by_cases h : s.length ≤ 1 ∨ 25 ≤ depth
    · simp [dif_pos h, BVHNode.isLeafNode, h]
    · simp [dif_neg h, BVHNode.isLeafNode, h]
  · intro h2 axis
    obtain ⟨ha, hb, hc, hd⟩ := partitionSAH_sizes m s axis h2
    exact ⟨ha, hb, hc, hd, partitionSAH_append_perm m s axis⟩
  · have := getTriangleSetBVH_height m s 0
    omega

/-- Witness for `bvh_builder_shape`: a two-triangle mesh (two separated
triangles), checking the leaf test, the split facts for axis 0, and the
height bound. -/
theorem bvh_builder_shape_witness :
    (((getTriangleSetBVH ⟨[0,0,0, 0,1,0, 1,0,1, 5,5,5, 5,6,5, 5,5,6], [0,1,2,3,4,5]⟩
        [0, 1] 0).isLeafNode = true ↔ [0, 1].length ≤ 1 ∨ 25 ≤ 0) ∧
      ((partitionSAH ⟨[0,0,0, 0,1,0, 1,0,1, 5,5,5, 5,6,5, 5,5,6], [0,1,2,3,4,5]⟩ [0, 1] 0).1 ≠ []) ∧
      (getTriangleSetBVH ⟨[0,0,0, 0,1,0, 1,0,1, 5,5,5, 5,6,5, 5,5,6], [0,1,2,3,4,5]⟩
        [0, 1] 0).height ≤ 25) := by
  have h := bvh_builder_shape ⟨[0,0,0, 0,1,0, 1,0,1, 5,5,5, 5,6,5, 5,5,6], [0,1,2,3,4,5]⟩ [0, 1] 0
  exact ⟨h.1, (h.2.1 (by norm_num) 0).1, h.2.2⟩

end BVH2

namespace BVH2

theorem getD_concat {α : Type} (pre suf : List α) (x d : α) :
    (pre ++ x :: suf).getD pre.length d = x := by
  rw [List.getD_eq_getElem?_getD, List.getElem?_append_right (le_refl pre.length)]
  simp

theorem flattenNode_next (t : BVHNode) : ∀ (i : ℕ) (prims : List ℕ),
    (flattenNode t i prims).2.2 = i + t.size ∧
    (flattenNode t i prims).1.length = t.size := by
  induction t with
  | leaf box tris =>
    intro i prims
    simp [flattenNode, BVHNode.size]
  | interior box l r ihl ihr =>
    intro i prims
    simp only [flattenNode, BVHNode.size, List.length_cons, List.length_append]
    have hl := ihl (i + 1) prims
    have hr := ihr ((flattenNode l (i + 1) prims).2.2) ((flattenNode l (i + 1) prims).2.1)
    omega

theorem flattenNode_prims (t : BVHNode) : ∀ (i : ℕ) (prims : List ℕ),
    (flattenNode t i prims).2.1 = prims ++ (dfsLeafTris t).flatten := by
  induction t with
  | leaf box tris =>
    intro i prims
    simp [flattenNode, dfsLeafTris]
  | interior box l r ihl ihr =>
    intro i prims
    simp only [flattenNode, dfsLeafTris, List.flatten_append]
    rw [ihr, ihl, List.append_assoc]

theorem height_lt_size (t : BVHNode) : t.height < t.size := by
  induction t with
  | leaf box tris => simp [BVHNode.height, BVHNode.size]
  | interior box l r ihl ihr =>
    simp only [BVHNode.height, BVHNode.size]
    omega

theorem walkFlat_flattenNode (t : BVHNode) :
    ∀ (i : ℕ) (prims rest : List ℕ) (pre post : List FlatNode) (fuel : ℕ),
      pre.length = i → t.height < fuel →
      walkFlat (pre ++ (flattenNode t i prims).1 ++ post)
        (prims ++ (dfsLeafTris t).flatten ++ rest) fuel i = dfsLeafTris t := by
  induction t with
  | leaf box tris =>
    intro i prims rest pre post fuel hpre hfuel
    subst hpre
    cases fuel with
    | zero => omega
    | succ fuel =>
      simp only [flattenNode, dfsLeafTris, walkFlat, List.flatten_cons, List.flatten_nil,
        List.append_nil]
      have hget : (pre ++ [(⟨box.minCorner, box.maxCorner, true, -1, -1, (prims.length : ℤ),
            (tris.length : ℤ)⟩ : FlatNode)] ++ post).getD pre.length dfltFlatNode
          = ⟨box.minCorner, box.maxCorner, true, -1, -1, (prims.length : ℤ),
            (tris.length : ℤ)⟩ := by
        rw [show pre ++ [(⟨box.minCorner, box.maxCorner, true, -1, -1, (prims.length : ℤ),
            (tris.length : ℤ)⟩ : FlatNode)] ++ post
          = pre ++ (⟨box.minCorner, box.maxCorner, true, -1, -1, (prims.length : ℤ),
            (tris.length : ℤ)⟩ : FlatNode) :: post from by simp]
        exact getD_concat pre post _ dfltFlatNode
      rw [hget]
      simp only [eq_self_iff_true, if_true, Int.toNat_natCast, List.append_assoc,
        List.drop_left, List.take_left]
  | interior box l r ihl ihr =>
    intro i prims rest pre post fuel hpre hfuel
    subst hpre
    cases fuel with
    | zero => omega
    | succ fuel =>
      have hlnext := flattenNode_next l (pre.length + 1) prims
      have hfl : l.height < fuel := by
        have h1 := le_max_left l.height r.height
        simp only [BVHNode.height] at hfuel
        omega
      have hfr : r.height < fuel := by
        have h1 := le_max_right l.height r.height
        simp only [BVHNode.height] at hfuel
        omega
      simp only [flattenNode, dfsLeafTris, walkFlat, List.flatten_append]
      set L1 := (flattenNode l (pre.length + 1) prims).1 with hL1
      set R1 := (flattenNode r (flattenNode l (pre.length + 1) prims).2.2
        (flattenNode l (pre.length + 1) prims).2.1).1 with hR1
      set nd : FlatNode :=
        ⟨box.minCorner, box.maxCorner, false, (pre.length : ℤ) + 1,
          ((flattenNode l (pre.length + 1) prims).2.2 : ℤ), -1, -1⟩ with hnd
      have hget : (pre ++ (nd :: L1 ++ R1) ++ post).getD pre.length dfltFlatNode = nd := by
        rw [show pre ++ (nd :: L1 ++ R1) ++ post = pre ++ nd :: (L1 ++ (R1 ++ post)) from by simp]
        exact getD_concat pre _ nd dfltFlatNode
      rw [hget]
      have hfalse : nd.isLeaf = false := rfl
      rw [hfalse, if_neg (by simp : ¬(false = true))]
      congr 1
      · -- left subtree walk, slots pre.length + 1 ..
        have step := ihl (pre.length + 1) prims ((dfsLeafTris r).flatten ++ rest)
          (pre ++ [nd]) (R1 ++ post) fuel (by simp) hfl
        rw [show pre ++ (nd :: L1 ++ R1) ++ post = (pre ++ [nd]) ++ L1 ++ (R1 ++ post)
          from by simp]
        rw [show prims ++ ((dfsLeafTris l).flatten ++ (dfsLeafTris r).flatten) ++ rest
          = prims ++ (dfsLeafTris l).flatten ++ ((dfsLeafTris r).flatten ++ rest)
          from by simp]
        exact step
      · -- right subtree walk, slots pre.length + 1 + size l ..
        have hrc : nd.rightChild.toNat = (flattenNode l (pre.length + 1) prims).2.2 := by
          rw [hnd]
          exact Int.toNat_natCast _
        rw [hrc]
        have step := ihr ((flattenNode l (pre.length + 1) prims).2.2)
          ((flattenNode l (pre.length + 1) prims).2.1) rest
          (pre ++ nd :: L1) post fuel (by simp [← hL1]; omega) hfr
        rw [show pre ++ (nd :: L1 ++ R1) ++ post = (pre ++ nd :: L1) ++ R1 ++ post
          from by simp]
        rw [show prims ++ ((dfsLeafTris l).flatten ++ (dfsLeafTris r).flatten) ++ rest
          = (flattenNode l (pre.length + 1) prims).2.1 ++ (dfsLeafTris r).flatten ++ rest
          from by rw [flattenNode_prims]; simp]
        exact step

theorem flattenNode_leftChild (t : BVHNode) : ∀ (i : ℕ) (prims : List ℕ) (k : ℕ) (n : FlatNode),
    (flattenNode t i prims).1[k]? = some n → n.isLeaf = false →
    n.leftChild = (i : ℤ) + k + 1 := by
  induction t with
  | leaf box tris =>
    intro i prims k n h hleaf
    cases k with
    | zero =>
      simp [flattenNode] at h
      rw [← h] at hleaf
      simp at hleaf
    | succ k => simp [flattenNode] at h
  | interior box l r ihl ihr =>
    intro i prims k n h hleaf
    simp only [flattenNode] at h
    rw [List.cons_append] at h
    cases k with
    | zero =>
      rw [List.getElem?_cons_zero] at h
      have h2 := Option.some.inj h
      rw [← h2]
      simp
    | succ k =>
      rw [List.getElem?_cons_succ] at h
      by_cases hk : k < (flattenNode l (i + 1) prims).1.length
      · rw [List.getElem?_append_left hk] at h
        have := ihl (i + 1) prims k n h hleaf
        rw [this]
        push_cast
        ring
      · rw [List.getElem?_append_right (le_of_not_lt hk)] at h
        have := ihr ((flattenNode l (i + 1) prims).2.2) ((flattenNode l (i + 1) prims).2.1)
          (k - (flattenNode l (i + 1) prims).1.length) n h hleaf
        have hnext := flattenNode_next l (i + 1) prims
        rw [this, hnext.1, hnext.2]
        have hk2 : l.size ≤ k := by
          rw [← hnext.2]
          omega
        push_cast [hk2]
        ring

/-- C4: flattening is depth-first with each interior node's left child at
`index+1` and its right child stored explicitly; the leaf triangle lists
are appended to the separate compacted primitive array in depth-first
order; and walking the flat array (left = `index+1`, right = stored index)
visits exactly the leaves of the original tree, in the same depth-first
order, each leaf's stored primitive range slicing back to its own triangle
list. -/
theorem flatten_walk (t : BVHNode) :
    (∀ (k : ℕ) (n : FlatNode), (flattenBVH t).1[k]? = some n → n.isLeaf = false →
      n.leftChild = (k : ℤ) + 1) ∧
    (flattenBVH t).2 = (dfsLeafTris t).flatten ∧
    walkFlat (flattenBVH t).1 (flattenBVH t).2 ((flattenBVH t).1.length) 0 = dfsLeafTris t := by
  refine ⟨?_, ?_, ?_⟩
  · intro k n h hleaf
    have := flattenNode_leftChild t 0 [] k n h hleaf
    simpa using this
  · show (flattenNode t 0 []).2.1 = _
    simpa using flattenNode_prims t 0 []
  · have hfuel : t.height < (flattenBVH t).1.length := by
      show t.height < (flattenNode t 0 []).1.length
      rw [(flattenNode_next t 0 []).2]
      exact height_lt_size t
    have := walkFlat_flattenNode t 0 [] [] [] [] ((flattenBVH t).1.length) rfl hfuel
    have hps : (flattenBVH t).2 = [] ++ (dfsLeafTris t).flatten ++ [] := by
      show (flattenNode t 0 []).2.1 = _
      simpa using flattenNode_prims t 0 []
    rw [hps]
    simpa using this

/-- Witness for `flatten_walk` on a concrete two-leaf tree: the root is
interior with left child at slot 1, the primitive array is the two leaf
lists concatenated, and the walk recovers the two leaves in order. -/
theorem flatten_walk_witness :
    ((flattenBVH (.interior ⟨⟨.fin 0, .fin 0, .fin 0⟩, ⟨.fin 1, .fin 1, .fin 1⟩⟩
        (.leaf ⟨⟨.fin 0, .fin 0, .fin 0⟩, ⟨.fin 0, .fin 0, .fin 0⟩⟩ [5])
        (.leaf ⟨⟨.fin 1, .fin 1, .fin 1⟩, ⟨.fin 1, .fin 1, .fin 1⟩⟩ [7]))).1[0]?
      = some ⟨⟨.fin 0, .fin 0, .fin 0⟩, ⟨.fin 1, .fin 1, .fin 1⟩, false, 1, 2, -1, -1⟩) ∧
    (⟨⟨(F.fin 0), .fin 0, .fin 0⟩, ⟨.fin 1, .fin 1, .fin 1⟩, false, 1, 2, -1, -1⟩
        : FlatNode).leftChild = (0 : ℤ) + 1 := by
  constructor
  · with_unfolding_all rfl
  · exact (flatten_walk (.interior ⟨⟨.fin 0, .fin 0, .fin 0⟩, ⟨.fin 1, .fin 1, .fin 1⟩⟩
        (.leaf ⟨⟨.fin 0, .fin 0, .fin 0⟩, ⟨.fin 0, .fin 0, .fin 0⟩⟩ [5])
        (.leaf ⟨⟨.fin 1, .fin 1, .fin 1⟩, ⟨.fin 1, .fin 1, .fin 1⟩⟩ [7]))).1 0 _
      (by with_unfolding_all rfl) rfl

end BVH2

/-! ### The traversal: linking the flat GPU array to the tree it encodes -/

theorem encodeG_length (t : GTree) : ∀ i : ℕ, (encodeG t i).length = t.size := by
  induction t with
  | gleaf b tri => intro i; rfl
  | ginterior b l r ihl ihr =>
    intro i
    simp only [encodeG, GTree.size, List.length_cons, List.length_append, ihl, ihr]
    omega

theorem repAt_encodeG (t : GTree) : ∀ (i : ℕ) (pre post : List GPUNode),
    pre.length = i → repAt (pre ++ (encodeG t i ++ post)) i t := by
  induction t with
  | gleaf b tri =>
    intro i pre post hpre
    show (pre ++ ([gpuRootNode (.gleaf b tri) i] ++ post)).getD i dfltGPUNode = _
    rw [List.singleton_append, ← hpre]
    exact BVH2.getD_concat pre post _ _
  | ginterior b l r ihl ihr =>
    intro i pre post hpre
    refine ⟨?_, ?_, ?_⟩
    · show (pre ++ ((gpuRootNode (.ginterior b l r) i
          :: (encodeG l (i + 1) ++ encodeG r (i + 1 + l.size))) ++ post)).getD i dfltGPUNode = _
      rw [List.cons_append, ← hpre]
      exact BVH2.getD_concat pre _ _ _
    · have h := ihl (i + 1) (pre ++ [gpuRootNode (.ginterior b l r) i])
        (encodeG r (i + 1 + l.size) ++ post) (by simp [hpre])
      show repAt (pre ++ ((gpuRootNode (.ginterior b l r) i
          :: (encodeG l (i + 1) ++ encodeG r (i + 1 + l.size))) ++ post)) (i + 1) l
      simp only [List.append_assoc, List.cons_append, List.singleton_append, List.nil_append] at h ⊢
      exact h
    · have h := ihr (i + 1 + l.size)
        (pre ++ (gpuRootNode (.ginterior b l r) i :: encodeG l (i + 1))) post
        (by simp [hpre, encodeG_length]; omega)
      show repAt (pre ++ ((gpuRootNode (.ginterior b l r) i
          :: (encodeG l (i + 1) ++ encodeG r (i + 1 + l.size))) ++ post)) (i + 1 + l.size) r
      simp only [List.append_assoc, List.cons_append, List.singleton_append, List.nil_append] at h ⊢
      exact h

theorem repAt_root (bvh : List GPUNode) (i : ℕ) (t : GTree) (h : repAt bvh i t) :
    bvh.getD i dfltGPUNode = gpuRootNode t i := by
  cases t with
  | gleaf b tri => exact h
  | ginterior b l r => exact h.1

theorem rayBoxHitNode_root (ray : Ray) (t : GTree) (i : ℕ) :
    rayBoxHitNode ray (gpuRootNode t i) = rayBoxHit ray t.box := by
  cases t <;> rfl

theorem gpuRootNode_gleaf (b : AABB) (tri i : ℕ) :
    gpuRootNode (.gleaf b tri) i = ⟨b.minCorner, b.maxCorner, true, tri, 0, 0⟩ := rfl

theorem gpuRootNode_ginterior (b : AABB) (l r : GTree) (i : ℕ) :
    gpuRootNode (.ginterior b l r) i
      = ⟨b.minCorner, b.maxCorner, false, 0, i + 1, i + 1 + l.size⟩ := rfl

theorem traceStep_bisim (bvh : List GPUNode) (m : Mesh) (ray : Ray)
    (is : List ℕ) (ts : List GTree) (acc : TraceAcc)
    (h : List.Forall₂ (repAt bvh) is ts) :
    List.Forall₂ (repAt bvh) (traceStep bvh m ray (is, acc)).1 (treeStep m ray (ts, acc)).1 ∧
      (traceStep bvh m ray (is, acc)).2 = (treeStep m ray (ts, acc)).2 := by
  cases h with
  | nil => exact ⟨List.Forall₂.nil, rfl⟩
  | @cons i t is' ts' hrep htail =>
    cases t with
    | gleaf b tri =>
      have hnd : bvh.getD i dfltGPUNode = gpuRootNode (.gleaf b tri) i := repAt_root _ _ _ hrep
      rw [List.getD_eq_getElem?_getD] at hnd
      have hstep : traceStep bvh m ray (i :: is', acc) = (is', triUpdate m ray acc tri) := by
        simp [traceStep, hnd, gpuRootNode_gleaf]
      rw [hstep]
      exact ⟨htail, rfl⟩
    | ginterior b l r =>
      obtain ⟨hroot, hl, hr⟩ := hrep
      have hndr : bvh.getD (i + 1 + l.size) dfltGPUNode = gpuRootNode r (i + 1 + l.size) :=
        repAt_root _ _ _ hr
      have hndl : bvh.getD (i + 1) dfltGPUNode = gpuRootNode l (i + 1) := repAt_root _ _ _ hl
      rw [List.getD_eq_getElem?_getD] at hndr hndl
      have hroot2 := hroot
      rw [List.getD_eq_getElem?_getD] at hroot2
      have hstep : traceStep bvh m ray (i :: is', acc) =
          (if rayBoxHit ray l.box
           then (i + 1) :: (if rayBoxHit ray r.box then (i + 1 + l.size) :: is' else is')
           else (if rayBoxHit ray r.box then (i + 1 + l.size) :: is' else is'), acc) := by
        simp only [traceStep, List.getD_eq_getElem?_getD, hroot2, gpuRootNode_ginterior]
        rw [hndr, hndl, rayBoxHitNode_root, rayBoxHitNode_root]
        simp
      have htree : treeStep m ray (GTree.ginterior b l r :: ts', acc) =
          (if rayBoxHit ray l.box
           then l :: (if rayBoxHit ray r.box then r :: ts' else ts')
           else (if rayBoxHit ray r.box then r :: ts' else ts'), acc) := by
        simp only [treeStep]
      rw [hstep, htree]
      refine ⟨?_, rfl⟩
      cases hbl : rayBoxHit ray l.box <;> cases hbr : rayBoxHit ray r.box <;>
        simp only [Bool.false_eq_true, if_false, if_true] <;>
        first
          | exact List.Forall₂.cons hl (List.Forall₂.cons hr htail)
          | exact List.Forall₂.cons hl htail
          | exact List.Forall₂.cons hr htail
          | exact htail

theorem iterate_bisim (bvh : List GPUNode) (m : Mesh) (ray : Ray) :
    ∀ (k : ℕ) (is : List ℕ) (ts : List GTree) (acc : TraceAcc),
    List.Forall₂ (repAt bvh) is ts →
    List.Forall₂ (repAt bvh) ((traceStep bvh m ray)^[k] (is, acc)).1
        ((treeStep m ray)^[k] (ts, acc)).1 ∧
      ((traceStep bvh m ray)^[k] (is, acc)).2 = ((treeStep m ray)^[k] (ts, acc)).2 := by
  intro k
  induction k with
  | zero => intro is ts acc h; exact ⟨h, rfl⟩
  | succ k ih =>
    intro is ts acc h
    obtain ⟨h1, h2⟩ := traceStep_bisim bvh m ray is ts acc h
    rw [Function.iterate_succ_apply, Function.iterate_succ_apply,
      show treeStep m ray (ts, acc)
        = ((treeStep m ray (ts, acc)).1, (traceStep bvh m ray (is, acc)).2) from by rw [h2]]
    exact ih _ _ _ h1

theorem treeStep_iterate_nil (m : Mesh) (ray : Ray) (acc : TraceAcc) (k : ℕ) :
    (treeStep m ray)^[k] ([], acc) = ([], acc) := by
  induction k with
  | zero => rfl
  | succ k ih => rw [Function.iterate_succ_apply, show treeStep m ray ([], acc) = ([], acc) from rfl, ih]

theorem stackMeasure_nil_iff (ts : List GTree) : stackMeasure ts = 0 ↔ ts = [] := by
  cases ts with
  | nil => simp [stackMeasure]
  | cons t rest => simp [stackMeasure]

theorem treeStep_measure (m : Mesh) (ray : Ray) (t : GTree) (ts : List GTree) (acc : TraceAcc) :
    stackMeasure ((treeStep m ray (t :: ts, acc)).1) < stackMeasure (t :: ts) := by
  cases t with
  | gleaf b tri =>
    simp [treeStep, stackMeasure, GTree.size]
  | ginterior b l r =>
    simp only [treeStep]
    cases hbl : rayBoxHit ray l.box <;> cases hbr : rayBoxHit ray r.box <;>
      simp only [Bool.false_eq_true, if_false, if_true] <;>
      simp [stackMeasure, GTree.size] <;> omega

theorem treeStep_empties (m : Mesh) (ray : Ray) :
    ∀ (n k : ℕ) (ts : List GTree) (acc : TraceAcc), stackMeasure ts ≤ n → n ≤ k →
      ((treeStep m ray)^[k] (ts, acc)).1 = [] := by
  intro n
  induction n with
  | zero =>
    intro k ts acc hm _
    have hts : ts = [] := (stackMeasure_nil_iff ts).mp (Nat.le_zero.mp hm)
    rw [hts, treeStep_iterate_nil]
  | succ n ih =>
    intro k ts acc hm hk
    cases ts with
    | nil => rw [treeStep_iterate_nil]
    | cons t rest =>
      have hk1 : k = (k - 1) + 1 := by omega
      rw [hk1, Function.iterate_succ_apply]
      have hlt := treeStep_measure m ray t rest acc
      exact ih (k - 1) (treeStep m ray (t :: rest, acc)).1 (treeStep m ray (t :: rest, acc)).2
        (by omega) (by omega)

theorem stackOK_step (m : Mesh) (ray : Ray) (B : ℕ) (ts : List GTree) (acc : TraceAcc)
    (h : stackOK B ts) : stackOK B ((treeStep m ray (ts, acc)).1) := by
  cases ts with
  | nil => exact trivial
  | cons t rest =>
    obtain ⟨hh, ht⟩ := h
    cases t with
    | gleaf b tri => exact ht
    | ginterior b l r =>
      simp only [GTree.height] at hh
      have hl := le_max_left l.height r.height
      have hr := le_max_right l.height r.height
      simp only [treeStep]
      cases hbl : rayBoxHit ray l.box <;> cases hbr : rayBoxHit ray r.box <;>
        simp only [Bool.false_eq_true, if_false, if_true]
      · exact ht
      · exact ⟨by omega, ht⟩
      · exact ⟨by omega, ht⟩
      · exact ⟨by simp [List.length_cons]; omega, by omega, ht⟩

theorem stackOK_length (B : ℕ) (ts : List GTree) (h : stackOK B ts) : ts.length ≤ B + 1 := by
  cases ts with
  | nil => simp
  | cons t rest =>
    obtain ⟨hh, _⟩ := h
    simp only [List.length_cons]
    omega

theorem stackOK_iterate (m : Mesh) (ray : Ray) (B : ℕ) :
    ∀ (k : ℕ) (ts : List GTree) (acc : TraceAcc), stackOK B ts →
      stackOK B (((treeStep m ray)^[k] (ts, acc)).1) := by
  intro k
  induction k with
  | zero => intro ts acc h; exact h
  | succ k ih =>
    intro ts acc h
    rw [Function.iterate_succ_apply]
    exact ih (treeStep m ray (ts, acc)).1 (treeStep m ray (ts, acc)).2 (stackOK_step m ray B ts acc h)

theorem treeStep_iterate_foldl (m : Mesh) (ray : Ray) :
    ∀ (n : ℕ) (ts : List GTree) (acc : TraceAcc) (k : ℕ), stackMeasure ts ≤ n → n ≤ k →
      ((treeStep m ray)^[k] (ts, acc)).2
        = ts.foldl (fun a t => visitTree m ray t a) acc := by
  intro n
  induction n with
  | zero =>
    intro ts acc k hm _
    have hts : ts = [] := (stackMeasure_nil_iff ts).mp (Nat.le_zero.mp hm)
    rw [hts, treeStep_iterate_nil]; rfl
  | succ n ih =>
    intro ts acc k hm hk
    cases ts with
    | nil => rw [treeStep_iterate_nil]; rfl
    | cons t rest =>
      have hk1 : k = (k - 1) + 1 := by omega
      have hlt := treeStep_measure m ray t rest acc
      rw [hk1, Function.iterate_succ_apply]
      have hih := ih (treeStep m ray (t :: rest, acc)).1
        (treeStep m ray (t :: rest, acc)).2 (k - 1) (by omega) (by omega)
      rw [hih]
      cases t with
      | gleaf b tri => rfl
      | ginterior b l r =>
        simp only [treeStep, List.foldl_cons]
        cases hbl : rayBoxHit ray l.box <;> cases hbr : rayBoxHit ray r.box <;>
          simp only [Bool.false_eq_true, if_false, if_true, List.foldl_cons] <;>
          simp [visitTree, hbl, hbr]

/-! ### Geometry: a kernel hit inside a bounding box passes the box test -/

theorem rayTriangleHit_cases (m : Mesh) (ray : Ray) (k : ℕ) :
    rayTriangleHit m ray k = noHit ∨
      (hitEps ≤ mtDet m ray k ∧ 0 ≤ mtU m ray k ∧ mtU m ray k ≤ 1 ∧ 0 ≤ mtV m ray k ∧
        mtU m ray k + mtV m ray k ≤ 1 ∧ hitEps < mtT m ray k ∧
        rayTriangleHit m ray k
          = ⟨k, ⟨1 - mtU m ray k - mtV m ray k, mtU m ray k, mtV m ray k⟩, mtT m ray k⟩) := by
  have hk : rayTriangleHit m ray k =
      if mtDet m ray k < hitEps then noHit
      else if mtU m ray k < 0 ∨ mtU m ray k > 1 then noHit
      else if mtV m ray k < 0 ∨ mtU m ray k + mtV m ray k > 1 then noHit
      else if mtT m ray k ≤ hitEps then noHit
      else ⟨k, ⟨1 - mtU m ray k - mtV m ray k, mtU m ray k, mtV m ray k⟩, mtT m ray k⟩ := rfl
  rw [hk]
  split_ifs with h1 h2 h3 h4
  · exact Or.inl rfl
  · exact Or.inl rfl
  · exact Or.inl rfl
  · exact Or.inl rfl
  · push_neg at h1 h2 h3
    exact Or.inr ⟨h1, h2.1, h2.2, h3.1, h3.2, lt_of_not_le h4, rfl⟩

theorem rayTriangleHit_nilIndices (m : Mesh) (ray : Ray) (k : ℕ) (h : m.indices = []) :
    rayTriangleHit m ray k = noHit := by
  have hdet : mtDet m ray k = 0 := by
    simp [mtDet, mtV0, mtV1, mtV2, Mesh.idx, h, Vec3.sub, Vec3.dot, Vec3.cross]
  rcases rayTriangleHit_cases m ray k with hmiss | ⟨hd, _⟩
  · exact hmiss
  · rw [hdet] at hd
    norm_num [hitEps] at hd

theorem mt_point (m : Mesh) (ray : Ray) (k : ℕ) (hdet : mtDet m ray k ≠ 0) :
    (1 - mtU m ray k - mtV m ray k) * (mtV0 m k).x + mtU m ray k * (mtV1 m k).x
        + mtV m ray k * (mtV2 m k).x = ray.origin.x + mtT m ray k * ray.direction.x ∧
    (1 - mtU m ray k - mtV m ray k) * (mtV0 m k).y + mtU m ray k * (mtV1 m k).y
        + mtV m ray k * (mtV2 m k).y = ray.origin.y + mtT m ray k * ray.direction.y ∧
    (1 - mtU m ray k - mtV m ray k) * (mtV0 m k).z + mtU m ray k * (mtV1 m k).z
        + mtV m ray k * (mtV2 m k).z = ray.origin.z + mtT m ray k * ray.direction.z := by
  simp only [mtU, mtV, mtT, mtDet, Vec3.sub, Vec3.dot, Vec3.cross] at hdet ⊢
  refine ⟨?_, ?_, ?_⟩ <;> field_simp <;> ring

theorem convex3_min (a b c mn x y z : ℚ) (ha : 0 ≤ a) (hb : 0 ≤ b) (hc : 0 ≤ c)
    (hsum : a + b + c = 1) (hx : mn ≤ x) (hy : mn ≤ y) (hz : mn ≤ z) :
    mn ≤ a * x + b * y + c * z := by
  have e : a * mn + b * mn + c * mn = mn := by rw [← add_mul, ← add_mul, hsum, one_mul]
  linarith [mul_le_mul_of_nonneg_left hx ha, mul_le_mul_of_nonneg_left hy hb,
    mul_le_mul_of_nonneg_left hz hc]

theorem convex3_max (a b c mx x y z : ℚ) (ha : 0 ≤ a) (hb : 0 ≤ b) (hc : 0 ≤ c)
    (hsum : a + b + c = 1) (hx : x ≤ mx) (hy : y ≤ mx) (hz : z ≤ mx) :
    a * x + b * y + c * z ≤ mx := by
  have e : a * mx + b * mx + c * mx = mx := by rw [← add_mul, ← add_mul, hsum, one_mul]
  linarith [mul_le_mul_of_nonneg_left hx ha, mul_le_mul_of_nonneg_left hy hb,
    mul_le_mul_of_nonneg_left hz hc]

theorem slab_bounds (mn mx o d t' : ℚ) (hd : d ≠ 0)
    (h1 : mn ≤ o + t' * d) (h2 : o + t' * d ≤ mx) :
    min ((mn - o) / d) ((mx - o) / d) ≤ t' ∧ t' ≤ max ((mn - o) / d) ((mx - o) / d) := by
  rcases hd.lt_or_lt with hneg | hpos
  · constructor
    · refine le_trans (min_le_right _ _) ?_
      rw [div_le_iff_of_neg hneg]
      nlinarith
    · refine le_trans ?_ (le_max_left _ _)
      rw [le_div_iff_of_neg hneg]
      nlinarith
  · constructor
    · refine le_trans (min_le_left _ _) ?_
      rw [div_le_iff hpos]
      nlinarith
    · refine le_trans ?_ (le_max_right _ _)
      rw [le_div_iff hpos]
      nlinarith

theorem isFin_exists (a : F) (h : F.isFin a = true) : ∃ q : ℚ, a = .fin q := by
  cases a with
  | fin q => exact ⟨q, rfl⟩
  | pinf => simp [F.isFin] at h
  | ninf => simp [F.isFin] at h
  | nan => simp [F.isFin] at h

theorem slabAxis_fin (a b o d : ℚ) (hd : d ≠ 0) (p q : ℚ) :
    slabAxis (.fin a) (.fin b) o d (.fin p, .fin q)
      = (.fin (max p (min ((a - o) / d) ((b - o) / d))),
         .fin (min q (max ((a - o) / d) ((b - o) / d)))) := by
  simp [slabAxis, fsubq, fdivq, qdivF, hd, fmin, fmax]

theorem rayBoxHit_allFin (ray : Ray) (mnx mny mnz mxx mxy mxz : ℚ)
    (hdx : ray.direction.x ≠ 0) (hdy : ray.direction.y ≠ 0) (hdz : ray.direction.z ≠ 0) :
    rayBoxHit ray ⟨⟨.fin mnx, .fin mny, .fin mnz⟩, ⟨.fin mxx, .fin mxy, .fin mxz⟩⟩
      = (decide
          (max (max (max 0 (min ((mnx - ray.origin.x) / ray.direction.x)
                               ((mxx - ray.origin.x) / ray.direction.x)))
                   (min ((mny - ray.origin.y) / ray.direction.y)
                        ((mxy - ray.origin.y) / ray.direction.y)))
               (min ((mnz - ray.origin.z) / ray.direction.z)
                    ((mxz - ray.origin.z) / ray.direction.z))
            ≤ min (min (min big30 (max ((mnx - ray.origin.x) / ray.direction.x)
                                       ((mxx - ray.origin.x) / ray.direction.x)))
                       (max ((mny - ray.origin.y) / ray.direction.y)
                            ((mxy - ray.origin.y) / ray.direction.y)))
                  (max ((mnz - ray.origin.z) / ray.direction.z)
                       ((mxz - ray.origin.z) / ray.direction.z))) &&
         decide
          ((0 : ℚ)
            ≤ min (min (min big30 (max ((mnx - ray.origin.x) / ray.direction.x)
                                       ((mxx - ray.origin.x) / ray.direction.x)))
                       (max ((mny - ray.origin.y) / ray.direction.y)
                            ((mxy - ray.origin.y) / ray.direction.y)))
                  (max ((mnz - ray.origin.z) / ray.direction.z)
                       ((mxz - ray.origin.z) / ray.direction.z)))) := by
  unfold rayBoxHit
  dsimp only
  rw [slabAxis_fin _ _ _ _ hdx, slabAxis_fin _ _ _ _ hdy, slabAxis_fin _ _ _ _ hdz]
  simp [fge]

theorem box_complete (ray : Ray) (b : AABB) (hfin : b.allFin = true)
    (hdx : ray.direction.x ≠ 0) (hdy : ray.direction.y ≠ 0) (hdz : ray.direction.z ≠ 0)
    (p : Vec3) (hin : BVH2.vec3InBox p b = true) (t' : ℚ) (ht0 : 0 ≤ t') (htb : t' ≤ big30)
    (hpx : p.x = ray.origin.x + t' * ray.direction.x)
    (hpy : p.y = ray.origin.y + t' * ray.direction.y)
    (hpz : p.z = ray.origin.z + t' * ray.direction.z) :
    rayBoxHit ray b = true := by
  obtain ⟨⟨c1, c2, c3⟩, ⟨d1, d2, d3⟩⟩ := b
  simp only [AABB.allFin, Bool.and_eq_true] at hfin
  obtain ⟨⟨⟨⟨⟨hf1, hf2⟩, hf3⟩, hf4⟩, hf5⟩, hf6⟩ := hfin
  obtain ⟨mnx, rfl⟩ := isFin_exists _ hf1
  obtain ⟨mny, rfl⟩ := isFin_exists _ hf2
  obtain ⟨mnz, rfl⟩ := isFin_exists _ hf3
  obtain ⟨mxx, rfl⟩ := isFin_exists _ hf4
  obtain ⟨mxy, rfl⟩ := isFin_exists _ hf5
  obtain ⟨mxz, rfl⟩ := isFin_exists _ hf6
  simp only [BVH2.vec3InBox, fle, fge, Bool.and_eq_true, decide_eq_true_eq] at hin
  obtain ⟨⟨⟨hx1, hx2⟩, hy1, hy2⟩, hz1, hz2⟩ := hin
  rw [hpx] at hx1 hx2
  rw [hpy] at hy1 hy2
  rw [hpz] at hz1 hz2
  obtain ⟨hlx, hhx⟩ := slab_bounds mnx mxx ray.origin.x ray.direction.x t' hdx hx1 hx2
  obtain ⟨hly, hhy⟩ := slab_bounds mny mxy ray.origin.y ray.direction.y t' hdy hy1 hy2
  obtain ⟨hlz, hhz⟩ := slab_bounds mnz mxz ray.origin.z ray.direction.z t' hdz hz1 hz2
  rw [rayBoxHit_allFin ray mnx mny mnz mxx mxy mxz hdx hdy hdz]
  rw [Bool.and_eq_true, decide_eq_true_eq, decide_eq_true_eq]
  have htmin : max (max (max 0 (min ((mnx - ray.origin.x) / ray.direction.x)
        ((mxx - ray.origin.x) / ray.direction.x)))
      (min ((mny - ray.origin.y) / ray.direction.y) ((mxy - ray.origin.y) / ray.direction.y)))
      (min ((mnz - ray.origin.z) / ray.direction.z) ((mxz - ray.origin.z) / ray.direction.z))
      ≤ t' := by
    exact max_le (max_le (max_le ht0 hlx) hly) hlz
  have htmax : t' ≤ min (min (min big30 (max ((mnx - ray.origin.x) / ray.direction.x)
        ((mxx - ray.origin.x) / ray.direction.x)))
      (max ((mny - ray.origin.y) / ray.direction.y) ((mxy - ray.origin.y) / ray.direction.y)))
      (max ((mnz - ray.origin.z) / ray.direction.z) ((mxz - ray.origin.z) / ray.direction.z)) := by
    exact le_min (le_min (le_min htb hhx) hhy) hhz
  exact ⟨le_trans htmin htmax, le_trans ht0 htmax⟩

theorem triUpdate_culled (m : Mesh) (ray : Ray) (b : AABB) (tri : ℕ)
    (hfin : b.allFin = true)
    (hdx : ray.direction.x ≠ 0) (hdy : ray.direction.y ≠ 0) (hdz : ray.direction.z ≠ 0)
    (hverts : ∀ v ∈ BVH2.triVerts m tri, BVH2.vec3InBox v b = true)
    (hbox : rayBoxHit ray b = false)
    (acc : TraceAcc) (hacc : acc.closest_t ≤ big30) :
    triUpdate m ray acc tri = acc := by
  rcases rayTriangleHit_cases m ray tri with hmiss | ⟨hdet, hu0, hu1, hv0, huv, ht, heq⟩
  · rw [triUpdate, hmiss]
    norm_num [noHit]
  · rw [triUpdate, heq]
    have ht0 : (0:ℚ) < mtT m ray tri := lt_trans (by norm_num [hitEps]) ht
    by_cases hcond : 0 < mtT m ray tri ∧ mtT m ray tri < acc.closest_t
    · exfalso
      have hdet0 : mtDet m ray tri ≠ 0 := by
        have : (0:ℚ) < hitEps := by norm_num [hitEps]
        exact (lt_of_lt_of_le this hdet).ne'
      obtain ⟨hcx, hcy, hcz⟩ := mt_point m ray tri hdet0
      have hv0in := hverts (mtV0 m tri) (by simp [BVH2.triVerts, mtV0])
      have hv1in := hverts (mtV1 m tri) (by simp [BVH2.triVerts, mtV1])
      have hv2in := hverts (mtV2 m tri) (by simp [BVH2.triVerts, mtV2])
      obtain ⟨⟨c1, c2, c3⟩, ⟨d1, d2, d3⟩⟩ := b
      simp only [AABB.allFin, Bool.and_eq_true] at hfin
      obtain ⟨⟨⟨⟨⟨hf1, hf2⟩, hf3⟩, hf4⟩, hf5⟩, hf6⟩ := hfin
      obtain ⟨mnx, rfl⟩ := isFin_exists _ hf1
      obtain ⟨mny, rfl⟩ := isFin_exists _ hf2
      obtain ⟨mnz, rfl⟩ := isFin_exists _ hf3
      obtain ⟨mxx, rfl⟩ := isFin_exists _ hf4
      obtain ⟨mxy, rfl⟩ := isFin_exists _ hf5
      obtain ⟨mxz, rfl⟩ := isFin_exists _ hf6
      simp only [BVH2.vec3InBox, fle, fge, Bool.and_eq_true, decide_eq_true_eq]
        at hv0in hv1in hv2in
      have ha : 0 ≤ 1 - mtU m ray tri - mtV m ray tri := by linarith
      have hsum : (1 - mtU m ray tri - mtV m ray tri) + mtU m ray tri + mtV m ray tri = 1 := by
        ring
      have hpin : BVH2.vec3InBox
          ⟨ray.origin.x + mtT m ray tri * ray.direction.x,
           ray.origin.y + mtT m ray tri * ray.direction.y,
           ray.origin.z + mtT m ray tri * ray.direction.z⟩
          ⟨⟨.fin mnx, .fin mny, .fin mnz⟩, ⟨.fin mxx, .fin mxy, .fin mxz⟩⟩ = true := by
        simp only [BVH2.vec3InBox, fle, fge, Bool.and_eq_true, decide_eq_true_eq]
        rw [← hcx, ← hcy, ← hcz]
        exact ⟨⟨⟨convex3_min _ _ _ _ _ _ _ ha hu0 hv0 hsum hv0in.1.1.1 hv1in.1.1.1 hv2in.1.1.1,
            convex3_max _ _ _ _ _ _ _ ha hu0 hv0 hsum hv0in.1.1.2 hv1in.1.1.2 hv2in.1.1.2⟩,
          convex3_min _ _ _ _ _ _ _ ha hu0 hv0 hsum hv0in.1.2.1 hv1in.1.2.1 hv2in.1.2.1,
            convex3_max _ _ _ _ _ _ _ ha hu0 hv0 hsum hv0in.1.2.2 hv1in.1.2.2 hv2in.1.2.2⟩,
          convex3_min _ _ _ _ _ _ _ ha hu0 hv0 hsum hv0in.2.1 hv1in.2.1 hv2in.2.1,
            convex3_max _ _ _ _ _ _ _ ha hu0 hv0 hsum hv0in.2.2 hv1in.2.2 hv2in.2.2⟩
      have := box_complete ray _ (by simp [AABB.allFin, F.isFin]) hdx hdy hdz _ hpin
        (mtT m ray tri) (le_of_lt ht0) (by linarith [hcond.2]) rfl rfl rfl
      rw [hbox] at this
      exact Bool.false_ne_true this
    · rw [if_neg ?_]
      intro habs
      exact hcond ⟨habs.1, habs.2⟩

theorem triUpdate_closest_le (m : Mesh) (ray : Ray) (acc : TraceAcc) (tri : ℕ) :
    (triUpdate m ray acc tri).closest_t ≤ acc.closest_t := by
  rw [triUpdate]
  split_ifs with h
  · exact le_of_lt h.2
  · exact le_refl _

theorem foldl_triUpdate_closest_le (m : Mesh) (ray : Ray) :
    ∀ (L : List ℕ) (acc : TraceAcc),
      (L.foldl (triUpdate m ray) acc).closest_t ≤ acc.closest_t := by
  intro L
  induction L with
  | nil => intro acc; exact le_refl _
  | cons x L ih =>
    intro acc
    exact le_trans (ih (triUpdate m ray acc x)) (triUpdate_closest_le m ray acc x)

theorem foldl_triUpdate_culled (m : Mesh) (ray : Ray) :
    ∀ (L : List ℕ) (acc : TraceAcc), acc.closest_t ≤ big30 →
      (∀ tri ∈ L, ∀ a : TraceAcc, a.closest_t ≤ big30 → triUpdate m ray a tri = a) →
      L.foldl (triUpdate m ray) acc = acc := by
  intro L
  induction L with
  | nil => intro acc _ _; rfl
  | cons x L ih =>
    intro acc hacc h
    have hx : triUpdate m ray acc x = acc := h x (List.mem_cons_self x L) acc hacc
    simp only [List.foldl_cons, hx]
    exact ih acc hacc (fun tri htri => h tri (List.mem_cons_of_mem x htri))

theorem gWF_root (m : Mesh) (t : GTree) (h : gWF m t) :
    t.box.allFin = true ∧
      ∀ tri ∈ t.leafTris, ∀ v ∈ BVH2.triVerts m tri, BVH2.vec3InBox v t.box = true := by
  cases t with
  | gleaf b tri =>
    refine ⟨h.1, ?_⟩
    intro tri2 htri2 v hv
    have : tri2 = tri := by simpa [GTree.leafTris] using htri2
    rw [this] at hv
    exact h.2 v hv
  | ginterior b l r => exact h.1

theorem visitTree_eq_foldl (m : Mesh) (ray : Ray)
    (hdx : ray.direction.x ≠ 0) (hdy : ray.direction.y ≠ 0) (hdz : ray.direction.z ≠ 0) :
    ∀ (t : GTree) (acc : TraceAcc), gWF m t → acc.closest_t ≤ big30 →
      visitTree m ray t acc = (t.leafTris).foldl (triUpdate m ray) acc := by
  intro t
  induction t with
  | gleaf b tri => intro acc _ _; rfl
  | ginterior b l r ihl ihr =>
    intro acc hwf hacc
    obtain ⟨hself, hwl, hwr⟩ := hwf
    have hcull : ∀ (s : GTree), gWF m s → rayBoxHit ray s.box = false →
        ∀ tri ∈ s.leafTris, ∀ a : TraceAcc, a.closest_t ≤ big30 →
          triUpdate m ray a tri = a := by
      intro s hws hbox tri htri a ha
      obtain ⟨hsfin, hscont⟩ := gWF_root m s hws
      exact triUpdate_culled m ray s.box tri hsfin hdx hdy hdz (hscont tri htri) hbox a ha
    simp only [visitTree, GTree.leafTris, List.foldl_append]
    have hacc1 : ∀ L : List ℕ, (L.foldl (triUpdate m ray) acc).closest_t ≤ big30 :=
      fun L => le_trans (foldl_triUpdate_closest_le m ray L acc) hacc
    cases hbl : rayBoxHit ray l.box <;> cases hbr : rayBoxHit ray r.box <;>
      simp only [Bool.false_eq_true, if_false, if_true]
    · rw [foldl_triUpdate_culled m ray l.leafTris acc hacc (hcull l hwl hbl),
        foldl_triUpdate_culled m ray r.leafTris acc hacc (hcull r hwr hbr)]
    · rw [foldl_triUpdate_culled m ray l.leafTris acc hacc (hcull l hwl hbl)]
      exact ihr acc hwr hacc
    · rw [ihl acc hwl hacc,
        foldl_triUpdate_culled m ray r.leafTris _ (hacc1 l.leafTris) (hcull r hwr hbr)]
    · rw [ihl acc hwl hacc]
      exact ihr _ hwr (hacc1 l.leafTris)

/-! ### The accumulator: closest-t projection, permutation invariance,
found-flag and hit-payload invariants -/

theorem foldl_triUpdate_closest (m : Mesh) (ray : Ray) :
    ∀ (L : List ℕ) (acc : TraceAcc),
      (L.foldl (triUpdate m ray) acc).closest_t = L.foldl (tFold m ray) acc.closest_t := by
  intro L
  induction L with
  | nil => intro acc; rfl
  | cons x L ih =>
    intro acc
    simp only [List.foldl_cons]
    rw [ih]
    congr 1
    rw [triUpdate, tFold, tCand]
    split_ifs with h
    · rfl
    · rfl

theorem tFold_eq_min (m : Mesh) (ray : Ray) (c : ℚ) (x : ℕ) :
    tFold m ray c x = if 0 < tCand m ray x then min c (tCand m ray x) else c := by
  rw [tFold]
  split_ifs with h1 h2 h3
  · exact (min_eq_right (le_of_lt h1.2)).symm
  · exact absurd h1.1 h2
  · refine (min_eq_left ?_).symm
    by_contra hlt
    exact h1 ⟨h3, lt_of_not_le hlt⟩
  · rfl

theorem tFold_right_comm (m : Mesh) (ray : Ray) (c : ℚ) (x y : ℕ) :
    tFold m ray (tFold m ray c x) y = tFold m ray (tFold m ray c y) x := by
  rw [tFold_eq_min, tFold_eq_min, tFold_eq_min, tFold_eq_min]
  split_ifs <;> first | rfl | rw [min_right_comm]

theorem foldl_triUpdate_found (m : Mesh) (ray : Ray) :
    ∀ (L : List ℕ) (acc : TraceAcc), acc.closest_t ≤ big30 →
      (acc.found_hit = true ↔ acc.closest_t < big30) →
      ((L.foldl (triUpdate m ray) acc).closest_t ≤ big30 ∧
        ((L.foldl (triUpdate m ray) acc).found_hit = true ↔
          (L.foldl (triUpdate m ray) acc).closest_t < big30)) := by
  intro L
  induction L with
  | nil => intro acc h1 h2; exact ⟨h1, h2⟩
  | cons x L ih =>
    intro acc h1 h2
    simp only [List.foldl_cons]
    refine ih (triUpdate m ray acc x) ?_ ?_
    · rw [triUpdate]
      split_ifs with h
      · exact le_trans (le_of_lt h.2) h1
      · exact h1
    · rw [triUpdate]
      split_ifs with h
      · simp only [true_iff]
        exact lt_of_lt_of_le h.2 h1
      · exact h2

theorem tFold_min_spec (m : Mesh) (ray : Ray) :
    ∀ (L : List ℕ) (c : ℚ),
      L.foldl (tFold m ray) c ≤ c ∧
      (L.foldl (tFold m ray) c < c ↔
        ∃ tri ∈ L, 0 < tCand m ray tri ∧ tCand m ray tri < c) := by
  intro L
  induction L with
  | nil =>
    intro c
    simp
  | cons x L ih =>
    intro c
    simp only [List.foldl_cons]
    by_cases h : 0 < tCand m ray x ∧ tCand m ray x < c
    · have hx : tFold m ray c x = tCand m ray x := by rw [tFold, if_pos h]
      rw [hx]
      have hle := (ih (tCand m ray x)).1
      refine ⟨le_trans hle (le_of_lt h.2), ?_⟩
      constructor
      · intro _
        exact ⟨x, List.mem_cons_self x L, h⟩
      · intro _
        exact lt_of_le_of_lt hle h.2
    · have hx : tFold m ray c x = c := by rw [tFold, if_neg h]
      rw [hx]
      refine ⟨(ih c).1, ?_⟩
      rw [(ih c).2]
      constructor
      · intro ⟨tri, htri, hv⟩
        exact ⟨tri, List.mem_cons_of_mem x htri, hv⟩
      · intro ⟨tri, htri, hv⟩
        rcases List.mem_cons.mp htri with rfl | htri
        · exact absurd hv h
        · exact ⟨tri, htri, hv⟩

theorem rayTraceBFSS_eq_foldl (m : Mesh) (ray : Ray) :
    rayTraceBFSS m ray
      = (List.range (m.indices.length / 3)).foldl (triUpdate m ray)
          ⟨big30, false, ⟨0, ⟨0, 0, 0⟩, 0⟩⟩ := by
  rw [rayTraceBFSS]
  congr 1
  funext acc tri
  show (if (rayTriangleHit m ray tri).t > hitEps ∧ (rayTriangleHit m ray tri).t < acc.closest_t
        then (⟨(rayTriangleHit m ray tri).t, true, rayTriangleHit m ray tri⟩ : TraceAcc) else acc)
      = (if (rayTriangleHit m ray tri).t > 0 ∧ (rayTriangleHit m ray tri).t < acc.closest_t
        then (⟨(rayTriangleHit m ray tri).t, true, rayTriangleHit m ray tri⟩ : TraceAcc) else acc)
  have hiff : ((rayTriangleHit m ray tri).t > hitEps ∧
        (rayTriangleHit m ray tri).t < acc.closest_t)
      ↔ ((rayTriangleHit m ray tri).t > 0 ∧ (rayTriangleHit m ray tri).t < acc.closest_t) := by
    rcases rayTriangleHit_cases m ray tri with hmiss | ⟨_, _, _, _, _, ht, heq⟩
    · rw [hmiss]
      norm_num [noHit, hitEps]
    · rw [heq]
      have h1 : (0:ℚ) < hitEps := by norm_num [hitEps]
      exact ⟨fun hh => ⟨lt_trans h1 hh.1, hh.2⟩, fun hh => ⟨ht, hh.2⟩⟩
  by_cases hc : (rayTriangleHit m ray tri).t > 0 ∧ (rayTriangleHit m ray tri).t < acc.closest_t
  · rw [if_pos (hiff.mpr hc), if_pos hc]
  · rw [if_neg (fun hh => hc (hiff.mp hh)), if_neg hc]

theorem visitTree_payload (m : Mesh) (ray : Ray) (P : ℕ → Prop) :
    ∀ (t : GTree) (acc : TraceAcc), (∀ tri ∈ t.leafTris, P tri) →
      (acc.found_hit = true → ∃ k, P k ∧ acc.hit = rayTriangleHit m ray k ∧
        0 < acc.hit.t ∧ acc.hit.t = acc.closest_t) →
      ((visitTree m ray t acc).found_hit = true →
        ∃ k, P k ∧ (visitTree m ray t acc).hit = rayTriangleHit m ray k ∧
          0 < (visitTree m ray t acc).hit.t ∧
          (visitTree m ray t acc).hit.t = (visitTree m ray t acc).closest_t) := by
  intro t
  induction t with
  | gleaf b tri =>
    intro acc hP hInv
    have hv : visitTree m ray (.gleaf b tri) acc = triUpdate m ray acc tri := rfl
    rw [hv, triUpdate]
    split_ifs with h
    · intro _
      exact ⟨tri, hP tri (by simp [GTree.leafTris]), rfl, h.1, rfl⟩
    · exact hInv
  | ginterior b l r ihl ihr =>
    intro acc hP hInv
    have hPl : ∀ tri ∈ l.leafTris, P tri := fun tri htri =>
      hP tri (by simp [GTree.leafTris, htri])
    have hPr : ∀ tri ∈ r.leafTris, P tri := fun tri htri =>
      hP tri (by simp [GTree.leafTris, htri])
    have hv : visitTree m ray (.ginterior b l r) acc
        = (if rayBoxHit ray r.box
           then visitTree m ray r (if rayBoxHit ray l.box then visitTree m ray l acc else acc)
           else (if rayBoxHit ray l.box then visitTree m ray l acc else acc)) := rfl
    rw [hv]
    by_cases hbr : rayBoxHit ray r.box = true
    · rw [if_pos hbr]
      by_cases hbl : rayBoxHit ray l.box = true
      · rw [if_pos hbl]
        exact ihr _ hPr (ihl _ hPl hInv)
      · rw [if_neg hbl]
        exact ihr _ hPr hInv
    · rw [if_neg hbr]
      by_cases hbl : rayBoxHit ray l.box = true
      · rw [if_pos hbl]
        exact ihl _ hPl hInv
      · rw [if_neg hbl]
        exact hInv

/-! ### Well-formedness of the first-revision builder's tree -/

theorem allFin_aabbGrow_pre (b : AABB) (v : Vec3) (h : b.allFin = true) :
    (BVH2.aabbGrow b v).allFin = true := by
  obtain ⟨⟨c1, c2, c3⟩, ⟨d1, d2, d3⟩⟩ := b
  simp only [AABB.allFin, Bool.and_eq_true] at h
  obtain ⟨⟨⟨⟨⟨hf1, hf2⟩, hf3⟩, hf4⟩, hf5⟩, hf6⟩ := h
  obtain ⟨q1, rfl⟩ := isFin_exists _ hf1
  obtain ⟨q2, rfl⟩ := isFin_exists _ hf2
  obtain ⟨q3, rfl⟩ := isFin_exists _ hf3
  obtain ⟨q4, rfl⟩ := isFin_exists _ hf4
  obtain ⟨q5, rfl⟩ := isFin_exists _ hf5
  obtain ⟨q6, rfl⟩ := isFin_exists _ hf6
  simp [BVH2.aabbGrow, AABB.allFin, fmin, fmax, F.isFin]

theorem allFin_aabbGrow_empty (v : Vec3) : (BVH2.aabbGrow BVH2.emptyAABB v).allFin = true := by
  simp [BVH2.aabbGrow, BVH2.emptyAABB, AABB.allFin, fmin, fmax, F.isFin]

theorem getTriangleSetAABB_allFin (m : Mesh) (s : List ℕ) (hs : s ≠ []) :
    (BVH2.getTriangleSetAABB m s).allFin = true := by
  cases s with
  | nil => exact absurd rfl hs
  | cons tri rest =>
    show ((BVH2.setVerts m (tri :: rest)).foldl BVH2.aabbGrow BVH2.emptyAABB).allFin = true
    have hsv : BVH2.setVerts m (tri :: rest)
        = m.vertex (m.idx (tri * 3)) :: m.vertex (m.idx (tri * 3 + 1))
            :: m.vertex (m.idx (tri * 3 + 2)) :: BVH2.setVerts m rest := by
      simp [BVH2.setVerts, BVH2.triVerts]
    rw [hsv]
    simp only [List.foldl_cons]
    exact foldl_invariant (fun b : AABB => b.allFin = true) BVH2.aabbGrow _ _
      (allFin_aabbGrow_pre _ _ (allFin_aabbGrow_pre _ _ (allFin_aabbGrow_empty _)))
      (fun b v h => allFin_aabbGrow_pre b v h)

theorem partitionAlongMedian_perm (m : Mesh) (s : List ℕ) (axis : Fin 3) :
    ((BVH1.partitionAlongMedian m s axis).1 ++ (BVH1.partitionAlongMedian m s axis).2).Perm
      s := by
  simp only [BVH1.partitionAlongMedian]
  rw [List.take_append_drop]
  refine (List.Perm.map Prod.fst (List.perm_insertionSort _ _)).trans ?_
  rw [List.map_map]
  rw [show (Prod.fst ∘ fun tri : ℕ => (tri, BVH2.triangleCenter m axis tri)) = id from rfl,
    List.map_id]

theorem partitionAlongMedian_sizes (m : Mesh) (s : List ℕ) (axis : Fin 3)
    (h2 : 2 ≤ s.length) :
    (BVH1.partitionAlongMedian m s axis).1 ≠ [] ∧
    (BVH1.partitionAlongMedian m s axis).2 ≠ [] ∧
    (BVH1.partitionAlongMedian m s axis).1.length < s.length ∧
    (BVH1.partitionAlongMedian m s axis).2.length < s.length := by
  have hl1 : (BVH1.partitionAlongMedian m s axis).1.length
      = min ((s.length + 1) / 2) s.length := by
    simp [BVH1.partitionAlongMedian]
  have hl2 : (BVH1.partitionAlongMedian m s axis).2.length
      = s.length - (s.length + 1) / 2 := by
    simp [BVH1.partitionAlongMedian]
  refine ⟨?_, ?_, by omega, by omega⟩
  · rw [← List.length_pos]
    omega
  · rw [← List.length_pos]
    omega

theorem v1_tree_wf (m : Mesh) : ∀ (s : List ℕ), s ≠ [] →
    gWF m (toG1 (BVH1.getTriangleSetBVH m s)) ∧
    (GTree.leafTris (toG1 (BVH1.getTriangleSetBVH m s))).Perm s := by
  intro s
  induction s using BVH1.getTriangleSetBVH.induct m with
  | case1 s h =>
    intro hs
    obtain ⟨a, rfl⟩ : ∃ a, s = [a] := by
      cases s with
      | nil => exact absurd rfl hs
      | cons a rest =>
        cases rest with
        | nil => exact ⟨a, rfl⟩
        | cons b rest2 => simp at h
    rw [BVH1.getTriangleSetBVH]
    rw [dif_pos h, if_pos (show ([a] : List ℕ).length = 1 from rfl)]
    have hball : (BVH2.getTriangleSetAABB m [a]).allFin = true :=
      getTriangleSetAABB_allFin m [a] (by simp)
    have hb := BVH2.boxContainsSet_getTriangleSetAABB m [a]
    rw [BVH2.boxContainsSet, List.all_eq_true] at hb
    constructor
    · show gWF m (.gleaf (BVH2.getTriangleSetAABB m [a]) a)
      refine ⟨hball, ?_⟩
      intro v hv
      refine hb v ?_
      simp only [BVH2.setVerts, List.flatMap_cons, List.flatMap_nil, List.append_nil]
      exact hv
    · show (GTree.leafTris (.gleaf (BVH2.getTriangleSetAABB m [a]) a)).Perm [a]
      exact List.Perm.refl _
  | case2 s box h axis p ihl ihr =>
    intro _
    have hlen2 : 2 ≤ s.length := by omega
    have hs : s ≠ [] := by
      intro habs
      rw [habs] at hlen2
      simp at hlen2
    obtain ⟨hne1, hne2, _, _⟩ := partitionAlongMedian_sizes m s
      (BVH2.dominantAxis (BVH2.getTriangleSetAABB m s)) hlen2
    have ihl2 : gWF m (toG1 (BVH1.getTriangleSetBVH m
          (BVH1.partitionAlongMedian m s
            (BVH2.dominantAxis (BVH2.getTriangleSetAABB m s))).1)) ∧
        (GTree.leafTris (toG1 (BVH1.getTriangleSetBVH m
          (BVH1.partitionAlongMedian m s
            (BVH2.dominantAxis (BVH2.getTriangleSetAABB m s))).1))).Perm
          (BVH1.partitionAlongMedian m s
            (BVH2.dominantAxis (BVH2.getTriangleSetAABB m s))).1 := ihl hne1
    have ihr2 : gWF m (toG1 (BVH1.getTriangleSetBVH m
          (BVH1.partitionAlongMedian m s
            (BVH2.dominantAxis (BVH2.getTriangleSetAABB m s))).2)) ∧
        (GTree.leafTris (toG1 (BVH1.getTriangleSetBVH m
          (BVH1.partitionAlongMedian m s
            (BVH2.dominantAxis (BVH2.getTriangleSetAABB m s))).2))).Perm
          (BVH1.partitionAlongMedian m s
            (BVH2.dominantAxis (BVH2.getTriangleSetAABB m s))).2 := ihr hne2
    rw [BVH1.getTriangleSetBVH]
    simp only [dif_neg h]
    have hperm : (GTree.leafTris (toG1 (BVH1.getTriangleSetBVH m
          (BVH1.partitionAlongMedian m s
            (BVH2.dominantAxis (BVH2.getTriangleSetAABB m s))).1))
        ++ GTree.leafTris (toG1 (BVH1.getTriangleSetBVH m
          (BVH1.partitionAlongMedian m s
            (BVH2.dominantAxis (BVH2.getTriangleSetAABB m s))).2))).Perm s :=
      (ihl2.2.append ihr2.2).trans
        (partitionAlongMedian_perm m s (BVH2.dominantAxis (BVH2.getTriangleSetAABB m s)))
    constructor
    · refine ⟨⟨getTriangleSetAABB_allFin m s hs, ?_⟩, ihl2.1, ihr2.1⟩
      intro tri htri v hv
      have htris : tri ∈ s := hperm.mem_iff.mp (by simpa [GTree.leafTris] using htri)
      have hb := BVH2.boxContainsSet_getTriangleSetAABB m s
      rw [BVH2.boxContainsSet, List.all_eq_true] at hb
      refine hb v ?_
      rw [BVH2.setVerts, List.mem_flatMap]
      exact ⟨tri, htris, hv⟩
    · exact hperm

/-! ### Both flatteners produce the depth-first encoding the traversal walks -/

theorem toG2w_size (t : BVH2.BVHNode) : ∀ p : ℕ, ((toG2w t p).1).size = t.size := by
  induction t with
  | leaf box tris => intro p; rfl
  | interior box l r ihl ihr =>
    intro p
    simp only [toG2w, GTree.size, BVH2.BVHNode.size, ihl, ihr]

theorem toG2w_height (t : BVH2.BVHNode) : ∀ p : ℕ, ((toG2w t p).1).height = t.height := by
  induction t with
  | leaf box tris => intro p; rfl
  | interior box l r ihl ihr =>
    intro p
    simp only [toG2w, GTree.height, BVH2.BVHNode.height, ihl, ihr]

theorem flattenNode1_encodeG (t : BVH1.BVHNode) : ∀ i : ℕ,
    (BVH1.flattenNode t i).1.map packNode = encodeG (toG1 t) i ∧
    (BVH1.flattenNode t i).2 = i + (toG1 t).size := by
  induction t with
  | leaf box tIdx =>
    intro i
    simp [BVH1.flattenNode, packNode, toG1, encodeG, gpuRootNode, GTree.size]
  | interior box l r ihl ihr =>
    intro i
    obtain ⟨ihl1, ihl2⟩ := ihl (i + 1)
    obtain ⟨ihr1, ihr2⟩ := ihr ((BVH1.flattenNode l (i + 1)).2)
    simp only [BVH1.flattenNode, toG1, encodeG, GTree.size, List.map_cons, List.map_append]
    refine ⟨?_, ?_⟩
    · rw [ihl2] at ihr1
      rw [ihl2, ihl1, ihr1]
      congr 1
    · rw [ihr2, ihl2]
      omega

theorem flattenNode2_encodeG (t : BVH2.BVHNode) : ∀ (i : ℕ) (prims : List ℕ),
    (BVH2.flattenNode t i prims).1.map packNode2 = encodeG ((toG2w t prims.length).1) i ∧
    (toG2w t prims.length).2 = ((BVH2.flattenNode t i prims).2.1).length := by
  induction t with
  | leaf box tris =>
    intro i prims
    simp [BVH2.flattenNode, packNode2, toG2w, encodeG, gpuRootNode]
  | interior box l r ihl ihr =>
    intro i prims
    obtain ⟨ihl1, ihl2⟩ := ihl (i + 1) prims
    obtain ⟨ihr1, ihr2⟩ :=
      ihr ((BVH2.flattenNode l (i + 1) prims).2.2) ((BVH2.flattenNode l (i + 1) prims).2.1)
    have hnext := BVH2.flattenNode_next l (i + 1) prims
    simp only [BVH2.flattenNode, toG2w, encodeG, List.map_cons, List.map_append]
    refine ⟨?_, ?_⟩
    · rw [hnext.1] at ihr1
      rw [hnext.1, ihl1, ihr1, ← ihl2, toG2w_size]
      rw [List.cons_append]
      congr 1
      simp only [packNode2, gpuRootNode_ginterior, GPUNode.mk.injEq, toG2w_size]
      exact ⟨trivial, trivial, trivial, rfl, by omega, by omega⟩
    · rw [ihl2]
      exact ihr2

theorem repAt_pack1 (t : BVH1.BVHNode) :
    repAt ((BVH1.flattenBVH t).map packNode) 0 (toG1 t) := by
  rw [BVH1.flattenBVH, (flattenNode1_encodeG t 0).1]
  have h := repAt_encodeG (toG1 t) 0 [] [] rfl
  simpa using h

theorem pack1_length (t : BVH1.BVHNode) :
    ((BVH1.flattenBVH t).map packNode).length = (toG1 t).size := by
  rw [BVH1.flattenBVH, (flattenNode1_encodeG t 0).1, encodeG_length]

theorem repAt_pack2 (t : BVH2.BVHNode) :
    repAt (((BVH2.flattenBVH t).1).map packNode2) 0 ((toG2w t 0).1) := by
  have h0 := (flattenNode2_encodeG t 0 []).1
  rw [BVH2.flattenBVH]
  rw [show ([] : List ℕ).length = 0 from rfl] at h0
  rw [h0]
  have h := repAt_encodeG ((toG2w t 0).1) 0 [] [] rfl
  simpa using h

theorem pack2_length (t : BVH2.BVHNode) :
    (((BVH2.flattenBVH t).1).map packNode2).length = t.size := by
  have h0 := (flattenNode2_encodeG t 0 []).1
  rw [show ([] : List ℕ).length = 0 from rfl] at h0
  rw [BVH2.flattenBVH, h0, encodeG_length, toG2w_size]

theorem trace_result (bvh : List GPUNode) (m : Mesh) (ray : Ray) (t : GTree)
    (hrep : repAt bvh 0 t) (hlen : t.size ≤ bvh.length) (hwf : gWF m t)
    (hdx : ray.direction.x ≠ 0) (hdy : ray.direction.y ≠ 0) (hdz : ray.direction.z ≠ 0) :
    rayTrace bvh m ray
      = (t.leafTris).foldl (triUpdate m ray) ⟨big30, false, ⟨0, ⟨0, 0, 0⟩, 0⟩⟩ := by
  rw [rayTrace, initTrace]
  have hbisim := (iterate_bisim bvh m ray (2 * bvh.length + 1) [0] [t]
    ⟨big30, false, ⟨0, ⟨0, 0, 0⟩, 0⟩⟩ (List.Forall₂.cons hrep List.Forall₂.nil)).2
  rw [hbisim]
  have hmeas : stackMeasure [t] = 2 * t.size + 1 := by simp [stackMeasure]
  have hfold := treeStep_iterate_foldl m ray (2 * t.size + 1) [t]
    ⟨big30, false, ⟨0, ⟨0, 0, 0⟩, 0⟩⟩ (2 * bvh.length + 1) (le_of_eq hmeas) (by omega)
  rw [hfold]
  show visitTree m ray t ⟨big30, false, ⟨0, ⟨0, 0, 0⟩, 0⟩⟩ = _
  exact visitTree_eq_foldl m ray hdx hdy hdz t _ hwf (le_refl _)

theorem trace_payload (bvh : List GPUNode) (m : Mesh) (ray : Ray) (t : GTree)
    (P : ℕ → Prop) (hrep : repAt bvh 0 t) (hlen : t.size ≤ bvh.length)
    (hP : ∀ tri ∈ t.leafTris, P tri) :
    (rayTrace bvh m ray).found_hit = true →
      ∃ k, P k ∧ (rayTrace bvh m ray).hit = rayTriangleHit m ray k ∧
        0 < (rayTrace bvh m ray).hit.t ∧
        (rayTrace bvh m ray).hit.t = (rayTrace bvh m ray).closest_t := by
  rw [rayTrace, initTrace]
  have hbisim := (iterate_bisim bvh m ray (2 * bvh.length + 1) [0] [t]
    ⟨big30, false, ⟨0, ⟨0, 0, 0⟩, 0⟩⟩ (List.Forall₂.cons hrep List.Forall₂.nil)).2
  rw [hbisim]
  have hmeas : stackMeasure [t] = 2 * t.size + 1 := by simp [stackMeasure]
  have hfold := treeStep_iterate_foldl m ray (2 * t.size + 1) [t]
    ⟨big30, false, ⟨0, ⟨0, 0, 0⟩, 0⟩⟩ (2 * bvh.length + 1) (le_of_eq hmeas) (by omega)
  rw [hfold]
  show (visitTree m ray t ⟨big30, false, ⟨0, ⟨0, 0, 0⟩, 0⟩⟩).found_hit = true → _
  exact visitTree_payload m ray P t ⟨big30, false, ⟨0, ⟨0, 0, 0⟩, 0⟩⟩ hP (by intro h; cases h)

theorem traceStep_iterate_nilstack (bvh : List GPUNode) (m : Mesh) (ray : Ray)
    (acc : TraceAcc) (k : ℕ) :
    (traceStep bvh m ray)^[k] ([], acc) = ([], acc) := by
  induction k with
  | zero => rfl
  | succ k ih =>
    rw [Function.iterate_succ_apply, show traceStep bvh m ray ([], acc) = ([], acc) from rfl, ih]

/-- C1 (amended): for a mesh of whole triangles and a ray all of whose
direction components are nonzero, the stack-based traversal of
assignment.wgsl, run on the flattened BVH of all of the mesh's triangles,
reports exactly the closest-hit `t` and hit/miss flag of the O(n)
brute-force loop over the same primitives with the same (single-sided)
intersection kernel.  (As stated over the code, the claim is false on two
counts, witnessed by `rayTrace_claim_false`: the brute force of
raytracing.wgsl is double-sided — `abs(det)` — while the traversal's kernel
back-face culls, and a ray with a zero direction component can be culled by
a box test even though it hits a triangle inside the box.) -/
theorem rayTrace_eq_bruteforce (m : Mesh) (ray : Ray) (hdiv : 3 ∣ m.indices.length)
    (hdx : ray.direction.x ≠ 0) (hdy : ray.direction.y ≠ 0) (hdz : ray.direction.z ≠ 0) :
    (rayTrace ((BVH1.flattenBVH (BVH1.getTriangleSetBVH m
        (List.range (m.indices.length / 3)))).map packNode) m ray).closest_t
      = (rayTraceBFSS m ray).closest_t ∧
    (rayTrace ((BVH1.flattenBVH (BVH1.getTriangleSetBVH m
        (List.range (m.indices.length / 3)))).map packNode) m ray).found_hit
      = (rayTraceBFSS m ray).found_hit := by
  by_cases hn : m.indices.length / 3 = 0
  · have hlen0 : m.indices.length = 0 := by
      obtain ⟨k, hk⟩ := hdiv
      omega
    have hnil : m.indices = [] := List.length_eq_zero.mp hlen0
    have hbfss : rayTraceBFSS m ray = ⟨big30, false, ⟨0, ⟨0, 0, 0⟩, 0⟩⟩ := by
      rw [rayTraceBFSS, hn]
      rfl
    have htree : BVH1.getTriangleSetBVH m [] = .leaf (BVH2.getTriangleSetAABB m []) (-1) := by
      rw [BVH1.getTriangleSetBVH]
      rw [dif_pos (by simp)]
      norm_num
    have hstep : traceStep ((BVH1.flattenBVH (BVH1.getTriangleSetBVH m
          (List.range (m.indices.length / 3)))).map packNode) m ray
          ([0], ⟨big30, false, ⟨0, ⟨0, 0, 0⟩, 0⟩⟩)
        = ([], ⟨big30, false, ⟨0, ⟨0, 0, 0⟩, 0⟩⟩) := by
      rw [hn, List.range_zero, htree]
      have hupd : triUpdate m ray ⟨big30, false, ⟨0, ⟨0, 0, 0⟩, 0⟩⟩ 0
          = ⟨big30, false, ⟨0, ⟨0, 0, 0⟩, 0⟩⟩ := by
        rw [triUpdate, rayTriangleHit_nilIndices m ray 0 hnil]
        norm_num [noHit]
      simp [BVH1.flattenBVH, BVH1.flattenNode, packNode, traceStep, hupd]
    have htrace : rayTrace ((BVH1.flattenBVH (BVH1.getTriangleSetBVH m
          (List.range (m.indices.length / 3)))).map packNode) m ray
        = ⟨big30, false, ⟨0, ⟨0, 0, 0⟩, 0⟩⟩ := by
      rw [rayTrace, initTrace]
      have hfuel : 2 * ((BVH1.flattenBVH (BVH1.getTriangleSetBVH m
          (List.range (m.indices.length / 3)))).map packNode).length + 1
          = 2 + 1 := by
        rw [hn, List.range_zero, htree]
        rfl
      rw [hfuel, Function.iterate_succ_apply, hstep, traceStep_iterate_nilstack]
    rw [htrace, hbfss]
    exact ⟨rfl, rfl⟩
  · have hne : List.range (m.indices.length / 3) ≠ [] := by
      intro habs
      rw [List.range_eq_nil] at habs
      exact hn habs
    obtain ⟨hwf, hperm⟩ := v1_tree_wf m (List.range (m.indices.length / 3)) hne
    have hrep := repAt_pack1 (BVH1.getTriangleSetBVH m (List.range (m.indices.length / 3)))
    have hlen := pack1_length (BVH1.getTriangleSetBVH m (List.range (m.indices.length / 3)))
    have htr := trace_result _ m ray _ hrep (le_of_eq hlen.symm) hwf hdx hdy hdz
    have hbfss := rayTraceBFSS_eq_foldl m ray
    have h0a : (⟨big30, false, ⟨0, ⟨0, 0, 0⟩, 0⟩⟩ : TraceAcc).closest_t ≤ big30 := le_refl _
    have h0b : ((⟨big30, false, ⟨0, ⟨0, 0, 0⟩, 0⟩⟩ : TraceAcc).found_hit = true ↔
        (⟨big30, false, ⟨0, ⟨0, 0, 0⟩, 0⟩⟩ : TraceAcc).closest_t < big30) := by
      simp
    have hclose : ((GTree.leafTris (toG1 (BVH1.getTriangleSetBVH m
          (List.range (m.indices.length / 3))))).foldl (triUpdate m ray)
            ⟨big30, false, ⟨0, ⟨0, 0, 0⟩, 0⟩⟩).closest_t
        = ((List.range (m.indices.length / 3)).foldl (triUpdate m ray)
            ⟨big30, false, ⟨0, ⟨0, 0, 0⟩, 0⟩⟩).closest_t := by
      rw [foldl_triUpdate_closest, foldl_triUpdate_closest]
      exact foldl_perm_of_right_comm (tFold m ray) (tFold_right_comm m ray) hperm _
    have hf1 := (foldl_triUpdate_found m ray (GTree.leafTris (toG1 (BVH1.getTriangleSetBVH m
      (List.range (m.indices.length / 3))))) ⟨big30, false, ⟨0, ⟨0, 0, 0⟩, 0⟩⟩ h0a h0b).2
    have hf2 := (foldl_triUpdate_found m ray (List.range (m.indices.length / 3))
      ⟨big30, false, ⟨0, ⟨0, 0, 0⟩, 0⟩⟩ h0a h0b).2
    rw [htr, hbfss]
    refine ⟨hclose, ?_⟩
    rw [hclose] at hf1
    exact Bool.eq_iff_iff.mpr (hf1.trans hf2.symm)

/-- C1 (counterexample to the claim as stated): (i) on the back-facing
triangle of `cexMesh2` the brute-force loop of raytracing.wgsl
(double-sided `abs(det)` test) finds a hit at `t = 1`, while the traversal
of assignment.wgsl on the flattened BVH of the same single triangle reports
a miss (its kernel rejects `det = -1 < 1e-5`); (ii) even against the
single-sided brute force, `cexRay3` (direction `(0,0,1)`, origin on the
`x = 0` slab plane of the first triangle's leaf box) hits the first
triangle of `cexMesh3` at `t = 1` but the traversal misses: `0/0 = NaN` in
the slab test combined with the NaN-dropping WGSL `min`/`max` drives `tmin`
to `+inf` and both children of the root are culled. -/
theorem rayTrace_claim_false :
    ((rayTraceBF cexMesh2 cexRay2).found_hit = true ∧
      (rayTraceBF cexMesh2 cexRay2).closest_t = 1 ∧
      (rayTrace ((BVH1.flattenBVH (BVH1.getTriangleSetBVH cexMesh2
          (List.range (cexMesh2.indices.length / 3)))).map packNode)
        cexMesh2 cexRay2).found_hit = false) ∧
    ((rayTraceBFSS cexMesh3 cexRay3).found_hit = true ∧
      (rayTraceBFSS cexMesh3 cexRay3).closest_t = 1 ∧
      (rayTrace ((BVH1.flattenBVH (BVH1.getTriangleSetBVH cexMesh3
          (List.range (cexMesh3.indices.length / 3)))).map packNode)
        cexMesh3 cexRay3).found_hit = false) := by
  refine ⟨⟨?_, ?_, ?_⟩, ?_, ?_, ?_⟩ <;> exact of_decide_eq_true (by with_unfolding_all rfl)

/-- Witness for `rayTrace_eq_bruteforce`: the empty mesh and a ray with all
direction components nonzero satisfy the hypotheses. -/
theorem rayTrace_eq_bruteforce_witness :
    ((3 ∣ (⟨[], []⟩ : Mesh).indices.length) ∧ ((1:ℚ) ≠ 0)) ∧
    ((rayTrace ((BVH1.flattenBVH (BVH1.getTriangleSetBVH (⟨[], []⟩ : Mesh)
        (List.range ((⟨[], []⟩ : Mesh).indices.length / 3)))).map packNode)
        (⟨[], []⟩ : Mesh) ⟨⟨0, 0, 0⟩, ⟨1, 1, 1⟩⟩).closest_t
      = (rayTraceBFSS (⟨[], []⟩ : Mesh) ⟨⟨0, 0, 0⟩, ⟨1, 1, 1⟩⟩).closest_t ∧
    (rayTrace ((BVH1.flattenBVH (BVH1.getTriangleSetBVH (⟨[], []⟩ : Mesh)
        (List.range ((⟨[], []⟩ : Mesh).indices.length / 3)))).map packNode)
        (⟨[], []⟩ : Mesh) ⟨⟨0, 0, 0⟩, ⟨1, 1, 1⟩⟩).found_hit
      = (rayTraceBFSS (⟨[], []⟩ : Mesh) ⟨⟨0, 0, 0⟩, ⟨1, 1, 1⟩⟩).found_hit) :=
  ⟨⟨⟨0, rfl⟩, one_ne_zero⟩,
   rayTrace_eq_bruteforce ⟨[], []⟩ ⟨⟨0, 0, 0⟩, ⟨1, 1, 1⟩⟩ ⟨0, rfl⟩
     one_ne_zero one_ne_zero one_ne_zero⟩

/-- C6: for every mesh and triangle set, the BVH built by the depth-capped
builder (second revision, flattened and packed into the WGSL node layout)
keeps the traversal's explicit stack at no more than 26 entries — in
particular the stack pointer never exceeds the fixed capacity 64 — at every
iteration of the `rayTrace` loop, for every ray; and the loop terminates:
after `2·|bvh|+1` iterations (the fuel `rayTrace` runs with) the stack is
empty, and an empty stack is a fixpoint of the loop body. -/
theorem traversal_stack_safe (m : Mesh) (s : List ℕ) (ray : Ray) :
    (∀ k : ℕ, ((traceStep (((BVH2.flattenBVH (BVH2.getTriangleSetBVH m s 0)).1).map packNode2)
        m ray)^[k] initTrace).1.length ≤ 64) ∧
    ((traceStep (((BVH2.flattenBVH (BVH2.getTriangleSetBVH m s 0)).1).map packNode2)
        m ray)^[2 * (((BVH2.flattenBVH (BVH2.getTriangleSetBVH m s 0)).1).map packNode2).length
          + 1] initTrace).1 = [] := by
  have hrep := repAt_pack2 (BVH2.getTriangleSetBVH m s 0)
  have hlen := pack2_length (BVH2.getTriangleSetBVH m s 0)
  have hh : ((toG2w (BVH2.getTriangleSetBVH m s 0) 0).1).height ≤ 25 := by
    rw [toG2w_height]
    have := BVH2.getTriangleSetBVH_height m s 0
    omega
  have hOK : stackOK 25 [(toG2w (BVH2.getTriangleSetBVH m s 0) 0).1] := by
    exact ⟨by simpa using hh, trivial⟩
  constructor
  · intro k
    have hbisim := (iterate_bisim _ m ray k [0] [(toG2w (BVH2.getTriangleSetBVH m s 0) 0).1]
      ⟨big30, false, ⟨0, ⟨0, 0, 0⟩, 0⟩⟩ (List.Forall₂.cons hrep List.Forall₂.nil)).1
    have hlen2 := List.Forall₂.length_eq hbisim
    have hOKk := stackOK_iterate m ray 25 k [(toG2w (BVH2.getTriangleSetBVH m s 0) 0).1]
      ⟨big30, false, ⟨0, ⟨0, 0, 0⟩, 0⟩⟩ hOK
    have hlen3 := stackOK_length 25 _ hOKk
    show ((traceStep _ m ray)^[k] ([0], ⟨big30, false, ⟨0, ⟨0, 0, 0⟩, 0⟩⟩)).1.length ≤ 64
    omega
  · have hmeas : stackMeasure [(toG2w (BVH2.getTriangleSetBVH m s 0) 0).1]
        = 2 * (BVH2.getTriangleSetBVH m s 0).size + 1 := by
      simp [stackMeasure, toG2w_size]
    have hempty := treeStep_empties m ray (2 * (BVH2.getTriangleSetBVH m s 0).size + 1)
      (2 * (((BVH2.flattenBVH (BVH2.getTriangleSetBVH m s 0)).1).map packNode2).length + 1)
      [(toG2w (BVH2.getTriangleSetBVH m s 0) 0).1] ⟨big30, false, ⟨0, ⟨0, 0, 0⟩, 0⟩⟩
      (le_of_eq hmeas) (by omega)
    have hbisim := (iterate_bisim _ m ray
      (2 * (((BVH2.flattenBVH (BVH2.getTriangleSetBVH m s 0)).1).map packNode2).length + 1)
      [0] [(toG2w (BVH2.getTriangleSetBVH m s 0) 0).1]
      ⟨big30, false, ⟨0, ⟨0, 0, 0⟩, 0⟩⟩ (List.Forall₂.cons hrep List.Forall₂.nil)).1
    rw [hempty] at hbisim
    show ((traceStep _ m ray)^[_] ([0], ⟨big30, false, ⟨0, ⟨0, 0, 0⟩, 0⟩⟩)).1 = []
    exact List.forall₂_nil_right_iff.mp hbisim

theorem v1_rayTrace_empty (m : Mesh) (ray : Ray) (hnil : m.indices = []) :
    rayTrace ((BVH1.flattenBVH (BVH1.getTriangleSetBVH m
        (List.range (m.indices.length / 3)))).map packNode) m ray
      = ⟨big30, false, ⟨0, ⟨0, 0, 0⟩, 0⟩⟩ := by
  have hn : m.indices.length / 3 = 0 := by rw [hnil]; rfl
  have htree : BVH1.getTriangleSetBVH m [] = .leaf (BVH2.getTriangleSetAABB m []) (-1) := by
    rw [BVH1.getTriangleSetBVH]
    rw [dif_pos (by simp)]
    norm_num
  have hstep : traceStep ((BVH1.flattenBVH (BVH1.getTriangleSetBVH m
        (List.range (m.indices.length / 3)))).map packNode) m ray
        ([0], ⟨big30, false, ⟨0, ⟨0, 0, 0⟩, 0⟩⟩)
      = ([], ⟨big30, false, ⟨0, ⟨0, 0, 0⟩, 0⟩⟩) := by
    rw [hn, List.range_zero, htree]
    have hupd : triUpdate m ray ⟨big30, false, ⟨0, ⟨0, 0, 0⟩, 0⟩⟩ 0
        = ⟨big30, false, ⟨0, ⟨0, 0, 0⟩, 0⟩⟩ := by
      rw [triUpdate, rayTriangleHit_nilIndices m ray 0 hnil]
      norm_num [noHit]
    simp [BVH1.flattenBVH, BVH1.flattenNode, packNode, traceStep, hupd]
  rw [rayTrace, initTrace]
  have hfuel : 2 * ((BVH1.flattenBVH (BVH1.getTriangleSetBVH m
      (List.range (m.indices.length / 3)))).map packNode).length + 1 = 2 + 1 := by
    rw [hn, List.range_zero, htree]
    rfl
  rw [hfuel, Function.iterate_succ_apply, hstep, traceStep_iterate_nilstack]

/-- C7: the pick query of assignment.wgsl always computes a definite result:
when no triangle of the mesh is hit by the (single-sided) kernel with a
positive `t` — in particular for an empty scene — it returns the sentinel
`-1`; whenever the traversal reports no hit it returns `-1`; and whenever
the traversal reports a hit, the hit is a genuine kernel hit on some
triangle `tri` of the mesh, at the loop's closest `t`, and the pick result
is the object id indexed by that triangle's first vertex,
`objectIds[indices[3·tri]]`. -/
theorem pick_main_spec (m : Mesh) (objectIds : List ℕ) (ray : Ray)
    (hdiv : 3 ∣ m.indices.length) :
    ((¬ ∃ tri, tri < m.indices.length / 3 ∧ 0 < (rayTriangleHit m ray tri).t) →
      pick_main ((BVH1.flattenBVH (BVH1.getTriangleSetBVH m
        (List.range (m.indices.length / 3)))).map packNode) m objectIds ray = -1) ∧
    ((rayTrace ((BVH1.flattenBVH (BVH1.getTriangleSetBVH m
        (List.range (m.indices.length / 3)))).map packNode) m ray).found_hit = false →
      pick_main ((BVH1.flattenBVH (BVH1.getTriangleSetBVH m
        (List.range (m.indices.length / 3)))).map packNode) m objectIds ray = -1) ∧
    ((rayTrace ((BVH1.flattenBVH (BVH1.getTriangleSetBVH m
        (List.range (m.indices.length / 3)))).map packNode) m ray).found_hit = true →
      ∃ tri, tri < m.indices.length / 3 ∧
        (rayTrace ((BVH1.flattenBVH (BVH1.getTriangleSetBVH m
          (List.range (m.indices.length / 3)))).map packNode) m ray).hit
          = rayTriangleHit m ray tri ∧
        0 < (rayTriangleHit m ray tri).t ∧
        (rayTriangleHit m ray tri).t
          = (rayTrace ((BVH1.flattenBVH (BVH1.getTriangleSetBVH m
            (List.range (m.indices.length / 3)))).map packNode) m ray).closest_t ∧
        pick_main ((BVH1.flattenBVH (BVH1.getTriangleSetBVH m
          (List.range (m.indices.length / 3)))).map packNode) m objectIds ray
          = (objectIds.getD (m.idx (tri * 3)) 0 : ℤ)) := by
  by_cases hn : m.indices.length / 3 = 0
  · have hlen0 : m.indices.length = 0 := by
      obtain ⟨k, hk⟩ := hdiv
      omega
    have hnil : m.indices = [] := List.length_eq_zero.mp hlen0
    have htr := v1_rayTrace_empty m ray hnil
    refine ⟨?_, ?_, ?_⟩
    · intro _
      simp [pick_main, htr]
    · intro _
      simp [pick_main, htr]
    · intro hfound
      rw [htr] at hfound
      simp at hfound
  · have hne : List.range (m.indices.length / 3) ≠ [] := by
      intro habs
      rw [List.range_eq_nil] at habs
      exact hn habs
    obtain ⟨hwf, hperm⟩ := v1_tree_wf m (List.range (m.indices.length / 3)) hne
    have hrep := repAt_pack1 (BVH1.getTriangleSetBVH m (List.range (m.indices.length / 3)))
    have hlen := pack1_length (BVH1.getTriangleSetBVH m (List.range (m.indices.length / 3)))
    have hpay := trace_payload _ m ray _ (fun k => k < m.indices.length / 3) hrep
      (le_of_eq hlen.symm)
      (fun tri htri => List.mem_range.mp (hperm.mem_iff.mp htri))
    refine ⟨?_, ?_, ?_⟩
    · intro hno
      by_cases hfound : (rayTrace ((BVH1.flattenBVH (BVH1.getTriangleSetBVH m
          (List.range (m.indices.length / 3)))).map packNode) m ray).found_hit = true
      · obtain ⟨k, hk, hhit, hpos, _⟩ := hpay hfound
        exact absurd ⟨k, hk, by rw [← hhit]; exact hpos⟩ hno
      · simp [pick_main, hfound]
    · intro hfound
      simp [pick_main, hfound]
    · intro hfound
      obtain ⟨k, hk, hhit, hpos, hteq⟩ := hpay hfound
      refine ⟨k, hk, hhit, by rw [← hhit]; exact hpos, by rw [← hhit]; exact hteq, ?_⟩
      rcases rayTriangleHit_cases m ray k with hmiss | ⟨_, _, _, _, _, _, heq⟩
      · rw [hmiss] at hhit
        rw [hhit] at hpos
        norm_num [noHit] at hpos
      · have hidx : (rayTrace ((BVH1.flattenBVH (BVH1.getTriangleSetBVH m
            (List.range (m.indices.length / 3)))).map packNode) m ray).hit.triIndex = k := by
          rw [hhit, heq]
        simp only [pick_main, if_pos hfound, hidx]

/-- Witness for `pick_main_spec`: the empty mesh satisfies the whole-triangle
hypothesis, and the pick, run against the empty scene, is covered. -/
theorem pick_main_spec_witness :
    (3 ∣ (⟨[], []⟩ : Mesh).indices.length) ∧
    ((¬ ∃ tri, tri < (⟨[], []⟩ : Mesh).indices.length / 3 ∧
        0 < (rayTriangleHit (⟨[], []⟩ : Mesh) ⟨⟨0, 0, 0⟩, ⟨1, 1, 1⟩⟩ tri).t) →
      pick_main ((BVH1.flattenBVH (BVH1.getTriangleSetBVH (⟨[], []⟩ : Mesh)
        (List.range ((⟨[], []⟩ : Mesh).indices.length / 3)))).map packNode)
        (⟨[], []⟩ : Mesh) [] ⟨⟨0, 0, 0⟩, ⟨1, 1, 1⟩⟩ = -1) :=
  ⟨⟨0, rfl⟩, (pick_main_spec (⟨[], []⟩ : Mesh) [] ⟨⟨0, 0, 0⟩, ⟨1, 1, 1⟩⟩ ⟨0, rfl⟩).1⟩
